import Mathlib

/-!
# Verification of the secure-aggregation building blocks

A shallow embedding of the arithmetic core of the repository
(Joye-Libert additively homomorphic encryption, its threshold extension,
Shamir secret sharing over a prime field, integer secret sharing,
vector/batch encoding, the full-domain hash, and the prime-field element
type), together with theorems settling the specification claims.

Python floor division and floor modulus on arbitrary-precision integers
are embedded as Int.fdiv and Int.fmod.  gmpy2.powmod with a negative
exponent is modular exponentiation of the modular inverse of the base.
-/

namespace LTD

/-- gmpy2.invert a m (as used via utils.invert and jl_utils):
the representative in [0, m) of the inverse of a modulo m, computed by the
extended gcd.  For a coprime to m this is the unique modular inverse. -/
def invmod (a m : ℕ) : ℕ := (((a : ZMod m))⁻¹).val

/-- gmpy2.powmod a e m for an arbitrary-precision integer exponent:
a nonnegative exponent is ordinary modular exponentiation, a negative
exponent exponentiates the modular inverse of the base. -/
def powmod (a : ℕ) (e : ℤ) (m : ℕ) : ℕ :=
  if 0 ≤ e then a ^ e.toNat % m else invmod a m ^ (-e).toNat % m

/-- UserKeyJL._encrypt: the ciphertext ((n*x + 1) mod n^2) * H(tau)^s mod n^2,
where the argument h stands for the full-domain hash value H(tau). -/
def jlEncrypt (n h : ℕ) (s : ℤ) (x : ℕ) : ℕ :=
  ((n * x + 1) % (n * n)) * powmod h s (n * n) % (n * n)

/-- EncryptedNumberJL._add_encrypted: ciphertext combination is the ring
product modulo n^2. -/
def jlAdd (n c1 c2 : ℕ) : ℕ := c1 * c2 % (n * n)

/-- The ciphertext folding loop shared by JLS.agg and TJLS.agg:
y_tau starts from the first ciphertext and absorbs the rest with +. -/
def jlAggFold (n : ℕ) (c0 : ℕ) (cs : List ℕ) : ℕ := cs.foldl (jlAdd n) c0

/-- The body of ServerKeyJL._raw_decrypt after the delta adjustment:
V = c * H(tau)^(d*s0) mod n^2; X = ((V - 1) // n) mod n;
the result is X * invert(d, n^2) mod n. -/
def jlRawDecryptCore (n h : ℕ) (s0 : ℤ) (c : ℕ) (d : ℕ) : ℤ :=
  let V : ℕ := c * powmod h ((d : ℤ) * s0) (n * n) % (n * n)
  let X : ℤ := (((V : ℤ) - 1).fdiv n).fmod n
  (X * (invmod d (n * n) : ℤ)).fmod n

/-- ServerKeyJL._raw_decrypt.  With ttp = false a delta parameter other
than 1 is first squared before the main computation. -/
def jlRawDecrypt (n h : ℕ) (s0 : ℤ) (c : ℕ) (dparam : ℕ) (ttp : Bool) : ℤ :=
  jlRawDecryptCore n h s0 c (if ttp = false ∧ dparam ≠ 1 then dparam ^ 2 else dparam)

/-- The scalar branch of JLS.agg: fold the ciphertexts with + and decrypt
once with the server key (delta parameter 1). -/
def jlAgg (n h : ℕ) (s0 : ℤ) (cs : List ℕ) : ℤ :=
  match cs with
  | [] => 0
  | c :: rest => jlRawDecrypt n h s0 (jlAggFold n c rest) 1 false

/-! ## The threshold extension TJLS (tjl.py), scalar path -/

/-- TJLS.share_protect (scalar path): the surviving user sums its shares of
the dropped users' keys into one temporary key and protects the zero value
under it; the ciphertext is the encryption of 0. -/
def tjlShareProtect (n h : ℕ) (keyShare : ℤ) : ℕ := jlEncrypt n h keyShare 0

/-- The product loop of TJLS.share_combine._reconstruct: each zero-share
ciphertext is raised to its (possibly negative) integer Lagrange
coefficient and the results are multiplied mod n^2, starting from 1.  The
surrounding guards (an assert for an under-quorum list and the duplicate
scan) are the same as in ISSS.reconstruct; this is the value computed when
they pass. -/
def tjlShareCombine (n : ℕ) (lag : ℕ → ℤ) (zshares : List (ℕ × ℕ)) : ℕ :=
  zshares.foldl (fun acc s => acc * powmod s.2 (lag s.1) (n * n) % (n * n)) 1

/-- TJLS.agg (scalar path): fold the online ciphertexts with +; with a
combined zero-share present, raise the fold to delta^2, multiply the
zero-share in, and decrypt with the delta parameter; otherwise decrypt
with delta parameter 1. -/
def tjlAgg (n h : ℕ) (delta : ℕ) (s0 : ℤ) (cs : List ℕ) (yzero : Option ℕ) : ℤ :=
  match cs with
  | [] => 0
  | c :: rest =>
      match yzero with
      | none => jlRawDecrypt n h s0 (jlAggFold n c rest) 1 false
      | some z =>
          jlRawDecrypt n h s0
            (jlAdd n (powmod (jlAggFold n c rest) ((delta ^ 2 : ℕ) : ℤ) (n * n)) z)
            delta false

/-! ## Setup key generation (JLS.setup / TD_TJLS.setup) -/

/-- The key accumulation loop shared verbatim by JLS.setup and
TD_TJLS.setup: s0 starts at 0, each drawn user key s (a nonnegative random
integer from getrandbits) is added, and the server key is the final
negation -s0, over the plain integers. -/
def setupServerKey (draws : List ℕ) : ℤ :=
  -(draws.foldl (fun (s0 : ℤ) (s : ℕ) => s0 + (s : ℤ)) 0)

/-- The user keys produced by the same loop: the draws themselves. -/
def setupUserKeys (draws : List ℕ) : List ℤ :=
  draws.map (fun (s : ℕ) => (s : ℤ))

lemma setup_foldl_eq_sum (draws : List ℕ) (a : ℤ) :
    draws.foldl (fun (s0 : ℤ) (s : ℕ) => s0 + (s : ℤ)) a
      = a + (draws.map (fun (s : ℕ) => (s : ℤ))).sum := by
  induction draws generalizing a with
  | nil => simp
  | cons d ds ih =>
      rw [List.foldl_cons, List.map_cons, List.sum_cons, ih]
      ring

/-! ## The prime-field element type (utils.PField) -/

/-- utils.PField: the constructor stores the encoded value as given,
WITHOUT reducing it modulo p (an mpz/int input is stored unchanged, a byte
string is decoded big-endian and stored unchanged). -/
structure PFieldV where
  p : ℤ
  bits : ℕ
  value : ℤ
deriving DecidableEq

/-- PField.__init__ on an integer (or mpz, or the integer decoded from a
byte string): the value is stored as-is. -/
def pfInit (encoded_value p : ℤ) (bits : ℕ) : PFieldV :=
  ⟨p, bits, encoded_value⟩

/-- PField.__mul__: (v1 * v2) % p, Python floor modulus. -/
def pfMul (a b : PFieldV) : PFieldV := ⟨a.p, a.bits, (a.value * b.value).fmod a.p⟩

/-- PField.__add__. -/
def pfAdd (a b : PFieldV) : PFieldV := ⟨a.p, a.bits, (a.value + b.value).fmod a.p⟩

/-- PField.__sub__. -/
def pfSub (a b : PFieldV) : PFieldV := ⟨a.p, a.bits, (a.value - b.value).fmod a.p⟩

/-- gmpy2.powmod on arbitrary integers: for m > 0 the result is the
canonical representative in [0, m); a negative exponent inverts the base. -/
def powmodZ (a e m : ℤ) : ℤ :=
  if 0 ≤ e then (a ^ e.toNat).fmod m
  else ((invmod ((a.fmod m).toNat) m.toNat : ℕ) : ℤ)

/-- utils.powmod: gmpy2.powmod with a special case returning 1 for base 1. -/
def utilsPowmod (a b c : ℤ) : ℤ := if a = 1 then 1 else powmodZ a b c

/-- PField.__pow__. -/
def pfPow (a b : PFieldV) : PFieldV := ⟨a.p, a.bits, utilsPowmod a.value b.value a.p⟩

/-- utils.invert: gmpy2.invert, raising (none) when no inverse exists and
additionally rejecting a zero result. -/
def utilsInvert (a b : ℤ) : Option ℤ :=
  if Int.gcd a b = 1 then
    if ((invmod ((a.fmod b).toNat) b.toNat : ℕ) : ℤ) = 0 then none
    else some ((invmod ((a.fmod b).toNat) b.toNat : ℕ) : ℤ)
  else none

/-- PField.inverse: raises on a zero stored value, otherwise utils.invert. -/
def pfInverse (a : PFieldV) : Option PFieldV :=
  if a.value = 0 then none
  else (utilsInvert a.value a.p).map (fun s => ⟨a.p, a.bits, s⟩)

/-! ## Secret sharing (ss.shamir_ss.SSS and ss.integer_ss.ISSS) -/

/-- The Horner evaluation loop shared by SSS.share and ISSS.share:
share = idx * share + coeff over the coefficient list (random coefficients
first, the constant term last). -/
def horner {R : Type} [CommRing R] (coeffs : List R) (x : R) : R :=
  coeffs.foldl (fun acc c => x * acc + c) 0

/-- SSS.share with the randomly drawn coefficients passed explicitly (the
rng draws fewer bytes than the field size, so each is already reduced):
shares are (i, f(i)) for i = 1..nusers with f the degree-(t-1) polynomial
whose threshold-1 leading coefficients are the draws and whose constant
term is Field(secret). -/
def sssShare (p : ℕ) (secret : ℕ) (rand : List (ZMod p)) (nusers : ℕ) :
    List (ℕ × ZMod p) :=
  (List.range nusers).map
    (fun i => (i + 1, horner (rand ++ [(secret : ZMod p)]) (((i + 1 : ℕ) : ZMod p))))

/-- SSS.lagrange: the coefficient stored for index x_j is
(prod of the other indices) * (prod of their differences to x_j)^-1, all in
the field; the dict keyed by field elements is a function here. -/
def sssLagrange (p : ℕ) (idxs : List ℕ) : ZMod p → ZMod p := fun xj =>
  ((idxs.map (fun i => ((i : ℕ) : ZMod p))).filter (fun x => x ≠ xj)).prod *
    (((idxs.map (fun i => ((i : ℕ) : ZMod p))).filter (fun x => x ≠ xj)).map
      (fun xm => xm - xj)).prod⁻¹

/-- The error taxonomy of reconstruct: the failed length assert and the
duplicate-share ValueError. -/
inductive SSErr where
  | insufficientShares
  | duplicateShare
deriving DecidableEq

/-- The incremental duplicate scan of SSS.reconstruct and ISSS.reconstruct:
each index is looked up among the already collected ones before being
appended. -/
def dupScan {α : Type} [DecidableEq α] (seen : List α) : List α → Bool
  | [] => false
  | x :: xs => if seen.contains x then true else dupScan (seen ++ [x]) xs

/-- SSS.reconstruct: assert at least threshold shares, raise on a duplicate
index (compared as field elements), then sum y_j * lagcoefs[x_j] and return
the representative value. -/
def sssReconstruct (p : ℕ) (threshold : ℕ) (lag : ZMod p → ZMod p)
    (shares : List (ℕ × ZMod p)) : Except SSErr ℕ :=
  if shares.length < threshold then .error .insufficientShares
  else if dupScan [] (shares.map (fun s => ((s.1 : ℕ) : ZMod p))) then
    .error .duplicateShare
  else .ok ((shares.map (fun s => s.2 * lag ((s.1 : ℕ) : ZMod p))).sum).val

/-- ISSS.share with the random signed coefficients passed explicitly: the
constant term is secret * delta with delta = nusers!, all over ℤ. -/
def isssShare (secret : ℤ) (delta : ℤ) (rand : List ℤ) (nusers : ℕ) :
    List (ℕ × ℤ) :=
  (List.range nusers).map
    (fun i => (i + 1, horner (rand ++ [secret * delta]) (((i + 1 : ℕ) : ℤ))))

/-- ISSS.lagrange: the coefficient stored for index x_j is
(delta * prod of the other indices) // (prod of their differences to x_j),
Python floor division over the integers. -/
def isssLagrange (delta : ℤ) (idxs : List ℕ) : ℕ → ℤ := fun xj =>
  (delta * ((idxs.filter (fun i => i ≠ xj)).map (fun m => ((m : ℕ) : ℤ))).prod).fdiv
    (((idxs.filter (fun i => i ≠ xj)).map (fun m => ((m : ℕ) : ℤ) - (xj : ℤ))).prod)

/-- ISSS.reconstruct: assert at least threshold shares, raise on a duplicate
index, sum y_j * lag_coeffs[x_j] and floor-divide by delta^2. -/
def isssReconstruct (threshold : ℕ) (delta : ℤ) (lag : ℕ → ℤ)
    (shares : List (ℕ × ℤ)) : Except SSErr ℤ :=
  if shares.length < threshold then .error .insufficientShares
  else if dupScan [] (shares.map Prod.fst) then .error .duplicateShare
  else .ok (((shares.map (fun s => s.2 * lag s.1)).sum).fdiv (delta ^ 2))

/-! ## Vector encoding scheme (vector_encoding.VES) -/

/-- The configuration of a VES instance: plaintext slot capacity, maximum
number of additions, per-value bit size, and vector length. -/
structure VESCfg where
  ptsize : ℕ
  addops : ℕ
  valuesize : ℕ
  vectorsize : ℕ

/-- VES.elementsize = valuesize + ceil(log2 addops), the per-slot width with
carry headroom.  For a natural number of addops, ceil(log2 .) is Nat.clog 2. -/
def vesElementSize (cfg : VESCfg) : ℕ := cfg.valuesize + Nat.clog 2 cfg.addops

/-- VES.compratio = floor(ptsize / elementsize): values packed per integer. -/
def vesCompRatio (cfg : VESCfg) : ℕ := cfg.ptsize / vesElementSize cfg

/-- VES._batch: a |= v << elementsize*i over the group; the first element
occupies the least-significant slot. -/
def vesBatch (es : ℕ) : List ℕ → ℕ
  | [] => 0
  | v :: vs => v ||| (vesBatch es vs <<< es)

/-- The grouping loop of VES.encode, fuelled by the list length: consecutive
groups of compratio values, with a trailing partial group. -/
def vesChunksF : ℕ → ℕ → List ℕ → List (List ℕ)
  | 0, _, _ => []
  | fuel + 1, k, V => if V = [] then [] else V.take k :: vesChunksF fuel k (V.drop k)

/-- The groups VES.encode batches.  When compratio = 0 the source's countdown
never fires and everything lands in one final batch. -/
def vesChunks (k : ℕ) (V : List ℕ) : List (List ℕ) :=
  if k = 0 then (if V = [] then [] else [V]) else vesChunksF V.length k V

/-- VES.encode: batch each group of compratio values. -/
def vesEncode (cfg : VESCfg) (V : List ℕ) : List ℕ :=
  (vesChunks (vesCompRatio cfg) V).map (vesBatch (vesElementSize cfg))

/-- VES._debatch, fuelled by the initial value of b: while b is nonzero,
extract the low elementsize bits with the mask and shift right.  An
elementsize of 0 makes the source loop forever; here the fuel runs out. -/
def vesDebatchF (es : ℕ) : ℕ → ℕ → List ℕ
  | 0, _ => []
  | fuel + 1, b =>
      if b = 0 then [] else (b &&& (2 ^ es - 1)) :: vesDebatchF es fuel (b >>> es)

/-- VES._debatch. -/
def vesDebatch (es b : ℕ) : List ℕ := vesDebatchF es b b

/-- VES.decode: debatch every encoded integer and concatenate. -/
def vesDecode (cfg : VESCfg) (E : List ℕ) : List ℕ :=
  (E.map (vesDebatch (vesElementSize cfg))).flatten

/-- The configuration used for the C5 counterexample: slot capacity 6,
one addition, 3-bit values (elementsize 3, compratio 2). -/
def vesCfgCE : VESCfg := ⟨6, 1, 3, 1⟩

/-- The configuration used for the C5 witness. -/
def vesCfgW : VESCfg := ⟨6, 1, 3, 3⟩

/-! ## Full-domain hash (full_domain_hash.FDH) -/

/-- The byte buffer of FDH.H after k hash calls, as a big-endian integer:
each call appends the 32-byte (256-bit) digest for counters 1..k.  The
SHA256 oracle is a parameter (t, counter) -> digest, reduced to 32 bytes,
since the hash library is an external collaborator. -/
def fdhAcc (digest : ℕ → ℕ → ℕ) (t : ℕ) : ℕ → ℕ
  | 0 => 0
  | k + 1 => fdhAcc digest t k * 2 ^ 256 + digest t (k + 1) % 2 ^ 256

/-- The candidate FDH.H tests after k digests: the trailing bytes of the
buffer (the slice result[-bitsize:], here a reduction mod 2^(8*bitsize)). -/
def fdhCandidate (bitsize : ℕ) (digest : ℕ → ℕ → ℕ) (t k : ℕ) : ℕ :=
  fdhAcc digest t k % 2 ^ (8 * bitsize)

/-- The retry loop of FDH.H with explicit fuel: starting at counter k, test
successive candidates and return the first coprime to N. -/
def fdhLoop (N bitsize : ℕ) (digest : ℕ → ℕ → ℕ) (t : ℕ) : ℕ → ℕ → Option ℕ
  | _, 0 => none
  | k, fuel + 1 =>
      if Nat.gcd (fdhCandidate bitsize digest t k) N = 1 then
        some (fdhCandidate bitsize digest t k)
      else fdhLoop N bitsize digest t (k + 1) fuel

/-- FDH.H: the retry loop started at counter 1. -/
def fdhH (N bitsize : ℕ) (digest : ℕ → ℕ → ℕ) (fuel t : ℕ) : Option ℕ :=
  fdhLoop N bitsize digest t 1 fuel

/-! ## EncryptedNumberJL.__add__ (jl_utils) -/

/-- The dynamic type of the second operand of EncryptedNumberJL.__add__. -/
inductive PyAddend where
  | encNum (pp2 : ℕ) (c2 : ℕ)
  | mpzVal (z : ℕ)
  | intVal (z : ℤ)
  | otherVal
deriving DecidableEq

/-- An EncryptedNumberJL: its public parameter modulus n and ciphertext. -/
structure EncNum where
  pp : ℕ
  ciphertext : ℕ
deriving DecidableEq

/-- The possible outcomes of EncryptedNumberJL.__add__: a ciphertext, a
raised ValueError (parameter mismatch inside _add_encrypted), or the Python
None that falls out when no isinstance branch matches. -/
inductive AddOutcome where
  | ok (c : EncNum)
  | errMismatch
  | pyNone
deriving DecidableEq

/-- EncryptedNumberJL.__add__: an EncryptedNumberJL operand goes through
_add_encrypted, an mpz operand is wrapped under self's parameters first,
and any other operand falls off the end of the function, returning None. -/
def encAdd (x : EncNum) (other : PyAddend) : AddOutcome :=
  match other with
  | .encNum pp2 c2 =>
      if x.pp = pp2 then .ok ⟨x.pp, jlAdd x.pp x.ciphertext c2⟩ else .errMismatch
  | .mpzVal z => .ok ⟨x.pp, jlAdd x.pp x.ciphertext z⟩
  | .intVal _ => .pyNone
  | .otherVal => .pyNone

section Bridge

variable {m : ℕ}

lemma natCast_val_self [NeZero m] (x : ZMod m) : ((x.val : ℕ) : ZMod m) = x :=
  ZMod.natCast_rightInverse x

lemma invmod_eq_inv_unit_val (a : ℕ) (hc : Nat.Coprime a m) :
    invmod a m = (((ZMod.unitOfCoprime a hc)⁻¹ : (ZMod m)ˣ) : ZMod m).val := by
  rw [invmod, ← ZMod.coe_unitOfCoprime a hc, ZMod.inv_coe_unit]

lemma val_pow_mod (x : ZMod m) [NeZero m] (k : ℕ) :
    x.val ^ k % m = (x ^ k).val := by
  conv_rhs => rw [← natCast_val_self x]
  rw [← Nat.cast_pow, ZMod.val_natCast]

/-- The key bridge: powmod of a base coprime to the modulus is the value of
the corresponding zpow in the unit group of ZMod m. -/
lemma powmod_eq_unit_zpow (a : ℕ) (e : ℤ) (hc : Nat.Coprime a m) [NeZero m] :
    powmod a e m = (((ZMod.unitOfCoprime a hc) ^ e : (ZMod m)ˣ) : ZMod m).val := by
  rcases le_or_lt 0 e with he | he
  · rw [powmod, if_pos he]
    have : (ZMod.unitOfCoprime a hc) ^ e = (ZMod.unitOfCoprime a hc) ^ e.toNat := by
      rw [← zpow_natCast]
      congr 1
      omega
    rw [this, Units.val_pow_eq_pow_val, ZMod.coe_unitOfCoprime, ← Nat.cast_pow,
      ZMod.val_natCast]
  · rw [powmod, if_neg (by omega)]
    have he' : e = -(((-e).toNat : ℕ) : ℤ) := by omega
    rw [he', zpow_neg, zpow_natCast, ← inv_pow, Units.val_pow_eq_pow_val,
      invmod_eq_inv_unit_val a hc, val_pow_mod]
    have harg : (- -(((-e).toNat : ℕ) : ℤ)).toNat = (-e).toNat := by omega
    rw [harg]

/-- A ciphertext c represents plaintext x with mask exponent e when, viewed
in ZMod (n*n), it is (1 + n*x) * H(tau)^e with the hash value seen as a unit. -/
def CipherRepr (n h : ℕ) (hc : Nat.Coprime h (n * n)) (c : ℕ) (x : ℕ) (e : ℤ) : Prop :=
  (c : ZMod (n * n)) =
    (1 + (n : ZMod (n * n)) * (x : ZMod (n * n))) *
      (((ZMod.unitOfCoprime h hc) ^ e : (ZMod (n * n))ˣ) : ZMod (n * n))

end Bridge

section ReprLemmas

variable {n h : ℕ} (hn : 2 ≤ n) (hc : Nat.Coprime h (n * n))

lemma nsq_nezero (hn : 2 ≤ n) : NeZero (n * n) := ⟨by positivity⟩

lemma cast_n_mul_n_zero : ((n : ZMod (n * n)) * (n : ZMod (n * n))) = 0 := by
  rw [← Nat.cast_mul, ZMod.natCast_self]

include hn in
lemma jlEncrypt_repr (s : ℤ) (x : ℕ) :
    CipherRepr n h hc (jlEncrypt n h s x) x s := by
  haveI := nsq_nezero hn
  unfold CipherRepr jlEncrypt
  rw [ZMod.natCast_mod, Nat.cast_mul, ZMod.natCast_mod]
  rw [powmod_eq_unit_zpow h s hc, natCast_val_self]
  push_cast
  ring

lemma one_add_mul_one_add {a b : ZMod (n * n)} :
    (1 + (n : ZMod (n * n)) * a) * (1 + (n : ZMod (n * n)) * b) =
      1 + (n : ZMod (n * n)) * (a + b) := by
  have hz : ((n : ZMod (n * n)) * (n : ZMod (n * n))) = 0 := cast_n_mul_n_zero
  have expand : (1 + (n : ZMod (n * n)) * a) * (1 + (n : ZMod (n * n)) * b) =
      1 + (n : ZMod (n * n)) * (a + b) +
        ((n : ZMod (n * n)) * (n : ZMod (n * n))) * (a * b) := by ring
  rw [expand, hz, zero_mul, add_zero]

lemma jlAdd_repr {c1 c2 x1 x2 : ℕ} {e1 e2 : ℤ}
    (h1 : CipherRepr n h hc c1 x1 e1) (h2 : CipherRepr n h hc c2 x2 e2) :
    CipherRepr n h hc (jlAdd n c1 c2) (x1 + x2) (e1 + e2) := by
  unfold CipherRepr jlAdd at *
  rw [ZMod.natCast_mod, Nat.cast_mul, h1, h2, zpow_add, Units.val_mul]
  rw [show ((x1 + x2 : ℕ) : ZMod (n * n)) = (x1 : ZMod (n * n)) + x2 by push_cast; ring]
  rw [← one_add_mul_one_add]
  ring

/-- (1 + n*a)^k = 1 + n*(a*k) in ZMod (n*n): the binomial expansion
truncates because n^2 vanishes. -/
lemma one_add_mul_pow (a : ZMod (n * n)) (k : ℕ) :
    (1 + (n : ZMod (n * n)) * a) ^ k = 1 + (n : ZMod (n * n)) * (a * k) := by
  induction k with
  | zero => simp
  | succ k ih =>
      rw [pow_succ, ih, one_add_mul_one_add]
      push_cast
      ring

/-- powmod of a ciphertext value that is a unit times a Paillier part,
for a natural exponent. -/
lemma powmod_repr_pow {c x : ℕ} {e : ℤ} (hr : CipherRepr n h hc c x e) (d : ℕ) :
    CipherRepr n h hc (powmod c (d : ℤ) (n * n)) (x * d) (e * d) := by
  unfold CipherRepr at *
  rw [powmod, if_pos (by positivity), Int.toNat_natCast, ZMod.natCast_mod, Nat.cast_pow, hr]
  rw [mul_pow, one_add_mul_pow, ← Units.val_pow_eq_pow_val, ← zpow_natCast, ← zpow_mul]
  push_cast
  ring

include hn in
/-- powmod of a zero-plaintext ciphertext (a pure unit) for an arbitrary,
possibly negative, integer exponent. -/
lemma powmod_repr_unit {c : ℕ} {e : ℤ} (hr : CipherRepr n h hc c 0 e) (g : ℤ) :
    CipherRepr n h hc (powmod c g (n * n)) 0 (e * g) := by
  haveI := nsq_nezero hn
  unfold CipherRepr at *
  have hc' : (c : ZMod (n * n)) =
      (((ZMod.unitOfCoprime h hc ^ e : (ZMod (n * n))ˣ)) : ZMod (n * n)) := by
    rw [hr]; push_cast; ring
  rcases le_or_lt 0 g with hg | hg
  · rw [powmod, if_pos hg, ZMod.natCast_mod, Nat.cast_pow, hc',
      ← Units.val_pow_eq_pow_val]
    have hrw : (ZMod.unitOfCoprime h hc ^ e) ^ g.toNat = ZMod.unitOfCoprime h hc ^ (e * g) := by
      have hg' : ((g.toNat : ℕ) : ℤ) = g := by omega
      rw [← zpow_natCast, ← zpow_mul, hg']
    rw [hrw]
    push_cast
    ring
  · rw [powmod, if_neg (by omega)]
    have hinv : invmod c (n * n) =
        ((((ZMod.unitOfCoprime h hc ^ e)⁻¹ : (ZMod (n * n))ˣ)) : ZMod (n * n)).val := by
      rw [invmod, hc', ZMod.inv_coe_unit]
    rw [hinv, val_pow_mod, natCast_val_self, ← Units.val_pow_eq_pow_val]
    have hrw : ((ZMod.unitOfCoprime h hc ^ e)⁻¹) ^ (-g).toNat =
        ZMod.unitOfCoprime h hc ^ (e * g) := by
      have hg' : (((-g).toNat : ℕ) : ℤ) = -g := by omega
      rw [← zpow_neg, ← zpow_natCast, ← zpow_mul, hg']
      congr 1
      ring
    rw [hrw]
    push_cast
    ring

include hn in
/-- Folding jlEncrypt ciphertexts with the JLS.agg loop accumulates both the
plaintexts and the mask exponents. -/
lemma jlAggFold_repr (ps : List (ℤ × ℕ)) {acc X : ℕ} {E : ℤ}
    (hacc : CipherRepr n h hc acc X E) :
    CipherRepr n h hc (jlAggFold n acc (ps.map (fun p => jlEncrypt n h p.1 p.2)))
      (X + (ps.map Prod.snd).sum) (E + (ps.map Prod.fst).sum) := by
  induction ps generalizing acc X E with
  | nil => simpa [jlAggFold] using hacc
  | cons p ps ih =>
      simp only [List.map_cons, jlAggFold, List.foldl_cons, List.sum_cons]
      have h1 := jlAdd_repr hc hacc (jlEncrypt_repr hn hc p.1 p.2)
      have h2 := ih h1
      rw [show X + (p.2 + (ps.map Prod.snd).sum) = X + p.2 + (ps.map Prod.snd).sum by ring,
        show E + (p.1 + (ps.map Prod.fst).sum) = E + p.1 + (ps.map Prod.fst).sum by ring]
      exact h2

include hn in
/-- Master decryption lemma: if the ciphertext represents plaintext M < n
with mask exponent e, and d*s0 cancels e, then _raw_decrypt (with effective
delta d) returns M * invert(d, n^2) mod n. -/
lemma jlRawDecryptCore_eq {c M : ℕ} {e s0 : ℤ} {d : ℕ}
    (hM : M < n) (hr : CipherRepr n h hc c M e)
    (hcancel : e + (d : ℤ) * s0 = 0) :
    jlRawDecryptCore n h s0 c d = ((M * invmod d (n * n)) % n : ℕ) := by
  haveI := nsq_nezero hn
  have hnpos : 0 < n := by omega
  have hVcast : ((c * powmod h ((d : ℤ) * s0) (n * n) % (n * n) : ℕ) : ZMod (n * n)) =
      ((1 + n * M : ℕ) : ZMod (n * n)) := by
    rw [ZMod.natCast_mod, Nat.cast_mul, hr,
      powmod_eq_unit_zpow h ((d : ℤ) * s0) hc, natCast_val_self, mul_assoc,
      ← Units.val_mul, ← zpow_add, hcancel, zpow_zero, Units.val_one, mul_one]
    push_cast
    ring
  have hVlt : c * powmod h ((d : ℤ) * s0) (n * n) % (n * n) < n * n :=
    Nat.mod_lt _ (by positivity)
  have hMlt : 1 + n * M < n * n := by nlinarith
  have hV : c * powmod h ((d : ℤ) * s0) (n * n) % (n * n) = 1 + n * M := by
    have hmeq := (ZMod.natCast_eq_natCast_iff _ _ _).mp hVcast
    have h1 := Nat.mod_eq_of_lt hVlt
    have h2 := Nat.mod_eq_of_lt hMlt
    unfold Nat.ModEq at hmeq
    omega
  have hX : ((((1 + n * M : ℕ) : ℤ) - 1).fdiv n).fmod n = (M : ℤ) := by
    have harith : (((1 + n * M : ℕ) : ℤ)) - 1 = (n : ℤ) * M := by push_cast; ring
    rw [harith, Int.mul_fdiv_cancel_left _ (by exact_mod_cast hnpos.ne'),
      Int.fmod_eq_of_lt (by positivity) (by exact_mod_cast hM)]
  show ((((((c * powmod h ((d : ℤ) * s0) (n * n) % (n * n) : ℕ) : ℤ) - 1).fdiv n).fmod n) *
      (invmod d (n * n) : ℤ)).fmod n = ((M * invmod d (n * n)) % n : ℕ)
  rw [hV, hX]
  rw [show (M : ℤ) * (invmod d (n * n) : ℤ) = ((M * invmod d (n * n) : ℕ) : ℤ) by push_cast; ring]
  rw [Int.fmod_eq_emod _ (by positivity)]
  exact (Int.natCast_mod _ _).symm

include hn in
/-- Decryption with delta parameter 1 recovers the plaintext exactly. -/
lemma jlRawDecrypt_delta_one {c M : ℕ} {e s0 : ℤ}
    (hM : M < n) (hr : CipherRepr n h hc c M e) (hcancel : e + s0 = 0) :
    jlRawDecrypt n h s0 c 1 false = (M : ℤ) := by
  haveI := nsq_nezero hn
  unfold jlRawDecrypt
  rw [if_neg (by simp)]
  rw [jlRawDecryptCore_eq hn hc hM hr (by simpa using hcancel)]
  have hone : (1 : ZMod (n * n))⁻¹ = 1 := by
    have hmul := ZMod.coe_mul_inv_eq_one (n := n * n) 1 (Nat.coprime_one_left _)
    rwa [Nat.cast_one, one_mul] at hmul
  have hinv1 : invmod 1 (n * n) = 1 := by
    rw [invmod, Nat.cast_one, hone, ZMod.val_one'' (by nlinarith)]
  rw [hinv1, mul_one, Nat.mod_eq_of_lt hM]

include hn in
/-- Decryption with effective delta d recovers R from plaintext d*R when d is
coprime to n. -/
lemma jlRawDecryptCore_delta {c R : ℕ} {e s0 : ℤ} {d : ℕ}
    (hd : Nat.Coprime d n) (hR : R < n) (hdR : d * R < n)
    (hr : CipherRepr n h hc c (d * R) e) (hcancel : e + (d : ℤ) * s0 = 0) :
    jlRawDecryptCore n h s0 c d = (R : ℤ) := by
  haveI := nsq_nezero hn
  rw [jlRawDecryptCore_eq hn hc hdR hr hcancel]
  have hdnn : Nat.Coprime d (n * n) := Nat.Coprime.mul_right hd hd
  have hone : d * invmod d (n * n) ≡ 1 [MOD n * n] := by
    have : ((d * invmod d (n * n) : ℕ) : ZMod (n * n)) = ((1 : ℕ) : ZMod (n * n)) := by
      rw [Nat.cast_mul, invmod, ZMod.natCast_val, ZMod.cast_id,
        ZMod.coe_mul_inv_eq_one d hdnn, Nat.cast_one]
    exact (ZMod.natCast_eq_natCast_iff _ _ _).mp this
  have hone' : d * invmod d (n * n) ≡ 1 [MOD n] :=
    Nat.ModEq.of_dvd ⟨n, rfl⟩ hone
  have hmod : (d * R) * invmod d (n * n) ≡ R [MOD n] := by
    calc (d * R) * invmod d (n * n) = (d * invmod d (n * n)) * R := by ring
    _ ≡ 1 * R [MOD n] := Nat.ModEq.mul_right R hone'
    _ = R := by ring
  have hfin : (d * R) * invmod d (n * n) % n = R := by
    unfold Nat.ModEq at hmod
    rw [Nat.mod_eq_of_lt hR] at hmod
    exact hmod
  rw [hfin]

end ReprLemmas

/-! ## Horner evaluation as polynomial evaluation -/

section HornerPoly

open Polynomial

variable {R : Type} [CommRing R]

/-- The sharing polynomial behind the Horner loop, as proof scaffolding:
folding the coefficient list over X rather than over a point. -/
noncomputable def hornPoly (coeffs : List R) : R[X] :=
  coeffs.foldl (fun acc c => X * acc + C c) 0

lemma horner_foldl_eval (coeffs : List R) (x : R) (accP : R[X]) :
    (coeffs.foldl (fun acc c => X * acc + C c) accP).eval x
      = coeffs.foldl (fun acc c => x * acc + c) (accP.eval x) := by
  induction coeffs generalizing accP with
  | nil => rfl
  | cons c cs ih =>
      rw [List.foldl_cons, List.foldl_cons, ih]
      congr 1
      simp

lemma hornPoly_eval (coeffs : List R) (x : R) :
    (hornPoly coeffs).eval x = horner coeffs x := by
  have h := horner_foldl_eval coeffs x 0
  simpa [hornPoly, horner] using h

lemma horner_zero_append (cs : List R) (c : R) : horner (cs ++ [c]) 0 = c := by
  unfold horner
  rw [List.foldl_append]
  simp

lemma hornPoly_foldl_degree [Nontrivial R] [NoZeroDivisors R] :
    ∀ (coeffs : List R) (accP : R[X]) (n : ℕ), accP.degree < n →
      (coeffs.foldl (fun acc c => X * acc + C c) accP).degree
        < ((n + coeffs.length : ℕ) : WithBot ℕ) := by
  intro coeffs
  induction coeffs with
  | nil =>
      intro accP n hacc
      simpa using hacc
  | cons c cs ih =>
      intro accP n hacc
      rw [List.foldl_cons]
      have hstep : (X * accP + C c).degree < ((n + 1 : ℕ) : WithBot ℕ) := by
        refine lt_of_le_of_lt (degree_add_le _ _) (max_lt ?_ ?_)
        · by_cases h0 : accP = 0
          · rw [h0, mul_zero, degree_zero]
            exact WithBot.bot_lt_coe _
          · rw [degree_mul, degree_X]
            have hlt : (1 : WithBot ℕ) + accP.degree < 1 + (n : WithBot ℕ) :=
              WithBot.add_lt_add_left (by simp) hacc
            have hcast : (1 : WithBot ℕ) + (n : WithBot ℕ) = ((n + 1 : ℕ) : WithBot ℕ) := by
              push_cast
              ring
            rwa [hcast] at hlt
        · refine lt_of_le_of_lt (degree_C_le) ?_
          exact_mod_cast WithBot.coe_lt_coe.mpr (by omega)
      have h := ih (X * accP + C c) (n + 1) hstep
      have hlen : ((n + 1 + cs.length : ℕ) : WithBot ℕ)
          = ((n + (c :: cs).length : ℕ) : WithBot ℕ) := by
        rw [List.length_cons]
        congr 1
        omega
      rwa [hlen] at h

lemma hornPoly_degree [Nontrivial R] [NoZeroDivisors R] (coeffs : List R) :
    (hornPoly coeffs).degree < (coeffs.length : WithBot ℕ) := by
  have h := hornPoly_foldl_degree coeffs 0 0 (by simp)
  simpa [hornPoly] using h

end HornerPoly

/-! ## Lagrange interpolation at zero with explicit coefficients -/

section FieldLagrange

open Polynomial Finset

variable {F : Type} [Field F] [DecidableEq F]

/-- The constant term of a polynomial of degree below the number of nodes is
the weighted sum of its values, with the code's Lagrange coefficients
L_j(0) = (prod of other nodes) / (prod of their differences to node j). -/
lemma eval_zero_eq_lagrange_sum (s : Finset F) (f : F[X]) (hdeg : f.degree < s.card) :
    f.eval 0 = ∑ xj ∈ s, f.eval xj *
      ((∏ xm ∈ s.erase xj, xm) * (∏ xm ∈ s.erase xj, (xm - xj))⁻¹) := by
  have hinj : Set.InjOn id (s : Set F) := Set.injOn_id _
  have hf := Lagrange.eq_interpolate (v := id) hinj (by simpa using hdeg)
  conv_lhs => rw [hf]
  rw [Lagrange.interpolate_apply, eval_finset_sum]
  refine Finset.sum_congr rfl (fun xj hj => ?_)
  rw [eval_mul, eval_C]
  simp only [id]
  congr 1
  rw [Lagrange.basis, eval_prod, ← Finset.prod_inv_distrib, ← Finset.prod_mul_distrib]
  refine Finset.prod_congr rfl (fun xm hm => ?_)
  rw [Lagrange.basisDivisor]
  rw [eval_mul, eval_C, eval_sub, eval_X, eval_C]
  simp only [id]
  rw [zero_sub, ← neg_sub xm xj, inv_neg]
  ring

end FieldLagrange

/-! ## The duplicate scan -/

lemma dupScan_eq_false_iff {α : Type} [DecidableEq α] :
    ∀ (l seen : List α), dupScan seen l = false ↔ l.Nodup ∧ ∀ x ∈ l, x ∉ seen := by
  intro l
  induction l with
  | nil => intro seen; simp [dupScan]
  | cons x xs ih =>
      intro seen
      rw [dupScan]
      have hcont : (seen.contains x = true) ↔ x ∈ seen := by
        rw [List.contains_iff_exists_mem_beq]
        constructor
        · rintro ⟨a, ha, hbeq⟩
          have hxa : x = a := by simpa using hbeq
          rwa [hxa]
        · intro hmem
          exact ⟨x, hmem, by simp⟩
      by_cases hx : x ∈ seen
      · rw [if_pos (hcont.mpr hx)]
        constructor
        · intro h; cases h
        · rintro ⟨_, hall⟩
          exact absurd hx (hall x (by simp))
      · rw [if_neg (fun hc => hx (hcont.mp hc))]
        rw [ih (seen ++ [x])]
        constructor
        · rintro ⟨hnd, hall⟩
          have hxnot : x ∉ xs := fun hmem => by
            have := hall x hmem
            simp at this
          refine ⟨List.nodup_cons.mpr ⟨hxnot, hnd⟩, ?_⟩
          intro y hy
          rcases List.mem_cons.mp hy with rfl | hy'
          · exact hx
          · have := hall y hy'
            intro hsy
            exact this (by simp [hsy])
        · rintro ⟨hnd, hall⟩
          obtain ⟨hxnot, hnd'⟩ := List.nodup_cons.mp hnd
          refine ⟨hnd', ?_⟩
          intro y hy
          simp only [List.mem_append, List.mem_singleton]
          push_neg
          refine ⟨hall y (by simp [hy]), ?_⟩
          rintro rfl
          exact hxnot hy

lemma dupScan_nil_eq_false_iff {α : Type} [DecidableEq α] (l : List α) :
    dupScan [] l = false ↔ l.Nodup := by
  rw [dupScan_eq_false_iff]
  simp

lemma filter_toFinset_erase {α : Type} [DecidableEq α] (L : List α) (xj : α) :
    (L.filter (fun x => x ≠ xj)).toFinset = L.toFinset.erase xj := by
  ext y
  simp only [List.mem_toFinset, List.mem_filter, Finset.mem_erase,
    decide_eq_true_eq]
  tauto

/-! ## Shamir reconstruction from any quorum (towards C3) -/

section SSSProof

variable {p : ℕ} [Fact p.Prime]

lemma cast_list_nodup (sub : List ℕ) (hnd : sub.Nodup)
    (hlt : ∀ i ∈ sub, i < p) :
    (sub.map (fun i => ((i : ℕ) : ZMod p))).Nodup := by
  refine List.Nodup.map_on ?_ hnd
  intro x hx y hy hxy
  have hvx := ZMod.val_natCast_of_lt (hlt x hx)
  have hvy := ZMod.val_natCast_of_lt (hlt y hy)
  rw [← hvx, ← hvy, hxy]


lemma sssLagrange_eq_finset (sub : List ℕ)
    (hnd : (sub.map (fun i => ((i : ℕ) : ZMod p))).Nodup) (xj : ZMod p) :
    sssLagrange p sub xj =
      (∏ xm ∈ ((sub.map (fun i => ((i : ℕ) : ZMod p))).toFinset).erase xj, xm) *
        (∏ xm ∈ ((sub.map (fun i => ((i : ℕ) : ZMod p))).toFinset).erase xj,
          (xm - xj))⁻¹ := by
  set L : List (ZMod p) := sub.map (fun i => ((i : ℕ) : ZMod p)) with hL
  have hfnd : (L.filter (fun x => x ≠ xj)).Nodup := List.Nodup.filter _ hnd
  have hfin : (L.filter (fun x => x ≠ xj)).toFinset = L.toFinset.erase xj :=
    filter_toFinset_erase L xj
  unfold sssLagrange
  rw [← hL]
  congr 1
  · rw [← hfin, List.prod_toFinset (fun x => x) hfnd, List.map_id']
  · rw [← hfin, List.prod_toFinset (fun xm => xm - xj) hfnd]

/-! ## Exact integer Lagrange coefficients (towards C4 and C1) -/

section IntLagrange

open Finset Nat

lemma prod_Icc_id_factorial (M : ℕ) : (∏ m ∈ Finset.Icc 1 M, m) = M ! := by
  induction M with
  | zero => simp
  | succ M ih =>
      rw [Finset.prod_Icc_succ_top (by omega), ih, Nat.factorial_succ, mul_comm]

lemma prod_subset_Icc_dvd_factorial (M : ℕ) (A : Finset ℕ)
    (hA : A ⊆ Finset.Icc 1 M) : (∏ m ∈ A, m) ∣ M ! := by
  rw [← prod_Icc_id_factorial M]
  exact Finset.prod_dvd_prod_of_subset A (Finset.Icc 1 M) _ hA

lemma fact_mul_fact_dvd (j N : ℕ) (h1 : 1 ≤ j) (h2 : j ≤ N) :
    (N - j)! * (j - 1)! ∣ N ! := by
  have hch := Nat.choose_mul_factorial_mul_factorial h2
  have hj : j ! = j * (j - 1)! := by
    obtain ⟨k, rfl⟩ : ∃ k, j = k + 1 := ⟨j - 1, by omega⟩
    simp [Nat.factorial_succ]
  refine ⟨N.choose j * j, ?_⟩
  rw [← hch, hj]
  ring

lemma prod_neg_int (s : Finset ℕ) (f : ℕ → ℤ) :
    ∏ m ∈ s, (-(f m)) = (-1) ^ s.card * ∏ m ∈ s, f m := by
  calc ∏ m ∈ s, (-(f m)) = ∏ m ∈ s, ((-1) * f m) :=
        Finset.prod_congr rfl (fun m _ => by ring)
  _ = (∏ _m ∈ s, (-1 : ℤ)) * ∏ m ∈ s, f m := Finset.prod_mul_distrib
  _ = (-1) ^ s.card * ∏ m ∈ s, f m := by rw [Finset.prod_const]

lemma neg_one_pow_mul_dvd (k : ℕ) (X D : ℤ) (h : X ∣ D) : (-1) ^ k * X ∣ D := by
  rcases Nat.even_or_odd k with he | ho
  · rwa [he.neg_one_pow, one_mul]
  · rw [ho.neg_one_pow, neg_one_mul]
    exact (neg_dvd).mpr h

/-- The key divisibility: for distinct indices from 1..N, the Lagrange
denominator (the product of differences to node j) divides N! over ℤ. -/
lemma erase_prod_sub_dvd_factorial (N j : ℕ) (T : Finset ℕ)
    (hT : ∀ m ∈ T, 1 ≤ m ∧ m ≤ N) (hj : j ∈ T) :
    (∏ m ∈ T.erase j, ((m : ℤ) - (j : ℤ))) ∣ ((N ! : ℕ) : ℤ) := by
  classical
  have hjN := hT j hj
  set E := T.erase j with hE
  have hEm : ∀ m ∈ E, (1 ≤ m ∧ m ≤ N) ∧ m ≠ j := by
    intro m hm
    rw [hE, Finset.mem_erase] at hm
    exact ⟨hT m hm.2, hm.1⟩
  set A := E.filter (fun m => j < m) with hA
  set B := E.filter (fun m => ¬ j < m) with hB
  set PA : ℕ := ∏ m ∈ A, (m - j) with hPA
  set PB : ℕ := ∏ m ∈ B, (j - m) with hPB
  have hsplit : ∏ m ∈ E, ((m : ℤ) - j)
      = (∏ m ∈ A, ((m : ℤ) - j)) * (∏ m ∈ B, ((m : ℤ) - j)) :=
    (Finset.prod_filter_mul_prod_filter_not E _ _).symm
  have hcastA : ∏ m ∈ A, ((m : ℤ) - j) = (PA : ℤ) := by
    rw [hPA, Nat.cast_prod]
    refine Finset.prod_congr rfl (fun m hm => ?_)
    have hjm : j < m := (Finset.mem_filter.mp hm).2
    rw [Nat.cast_sub (by omega)]
  have hcastB : ∏ m ∈ B, ((m : ℤ) - j) = (-1) ^ B.card * (PB : ℤ) := by
    have hperfac : ∏ m ∈ B, ((m : ℤ) - j) = ∏ m ∈ B, (-(((j - m : ℕ) : ℤ))) := by
      refine Finset.prod_congr rfl (fun m hm => ?_)
      obtain ⟨hmE, hnotlt⟩ := Finset.mem_filter.mp hm
      have hmj : m < j := by
        have := (hEm m hmE).2
        omega
      rw [Nat.cast_sub (by omega)]
      ring
    rw [hperfac, prod_neg_int, hPB, Nat.cast_prod]
  have hdvdA : PA ∣ (N - j)! := by
    have himg : PA = ∏ x ∈ A.image (fun m => m - j), x := by
      rw [hPA, Finset.prod_image]
      intro x hx y hy hxy
      have hx' : j < x := (Finset.mem_filter.mp hx).2
      have hy' : j < y := (Finset.mem_filter.mp hy).2
      omega
    rw [himg]
    refine prod_subset_Icc_dvd_factorial (N - j) _ ?_
    intro x hx
    obtain ⟨m, hm, rfl⟩ := Finset.mem_image.mp hx
    have h1 : j < m := (Finset.mem_filter.mp hm).2
    have h2 : m ≤ N := ((hEm m (Finset.mem_filter.mp hm).1).1).2
    rw [Finset.mem_Icc]
    omega
  have hdvdB : PB ∣ (j - 1)! := by
    have himg : PB = ∏ x ∈ B.image (fun m => j - m), x := by
      rw [hPB, Finset.prod_image]
      intro x hx y hy hxy
      have hx1 : x < j := by
        have h1 := (Finset.mem_filter.mp hx).2
        have h2 := (hEm x (Finset.mem_filter.mp hx).1).2
        omega
      have hy1 : y < j := by
        have h1 := (Finset.mem_filter.mp hy).2
        have h2 := (hEm y (Finset.mem_filter.mp hy).1).2
        omega
      omega
    rw [himg]
    refine prod_subset_Icc_dvd_factorial (j - 1) _ ?_
    intro x hx
    obtain ⟨m, hm, rfl⟩ := Finset.mem_image.mp hx
    have h1 : m < j := by
      have ha := (Finset.mem_filter.mp hm).2
      have hb := (hEm m (Finset.mem_filter.mp hm).1).2
      omega
    have h2 : 1 ≤ m := (hEm m (Finset.mem_filter.mp hm).1).1.1
    rw [Finset.mem_Icc]
    omega
  have hdvdnat : PA * PB ∣ N ! :=
    dvd_trans (mul_dvd_mul hdvdA hdvdB) (fact_mul_fact_dvd j N hjN.1 hjN.2)
  rw [hsplit, hcastA, hcastB]
  have hrearr : (PA : ℤ) * ((-1) ^ B.card * (PB : ℤ))
      = (-1) ^ B.card * ((PA : ℤ) * (PB : ℤ)) := by ring
  rw [hrearr]
  refine neg_one_pow_mul_dvd _ _ _ ?_
  rw [← Nat.cast_mul]
  exact_mod_cast hdvdnat

end IntLagrange

/-! ## Integer secret sharing: exact coefficients and reconstruction -/

section ISSSProof

open Finset

lemma horner_map {R S : Type} [CommRing R] [CommRing S] (φ : R →+* S)
    (coeffs : List R) (x : R) :
    φ (horner coeffs x) = horner (coeffs.map (fun c => φ c)) (φ x) := by
  unfold horner
  suffices h : ∀ acc : R, φ (coeffs.foldl (fun a c => x * a + c) acc)
      = (coeffs.map (fun c => φ c)).foldl (fun a c => φ x * a + c) (φ acc) by
    have h0 := h 0
    rwa [map_zero] at h0
  intro acc
  induction coeffs generalizing acc with
  | nil => rfl
  | cons c cs ih =>
      rw [List.foldl_cons, List.map_cons, List.foldl_cons, ih (x * acc + c)]
      congr 1
      rw [map_add, map_mul]

lemma isss_den_dvd (nusers : ℕ) (sub : List ℕ) (hnd : sub.Nodup)
    (hsub : ∀ i ∈ sub, 1 ≤ i ∧ i ≤ nusers) {j : ℕ} (hj : j ∈ sub) :
    ((sub.filter (fun i => i ≠ j)).map (fun m => ((m : ℕ) : ℤ) - (j : ℤ))).prod
      ∣ ((Nat.factorial nusers : ℕ) : ℤ) := by
  have hfin : (sub.filter (fun i => i ≠ j)).toFinset = sub.toFinset.erase j :=
    filter_toFinset_erase sub j
  have hfnd : (sub.filter (fun i => i ≠ j)).Nodup := hnd.filter _
  have hprod : ((sub.filter (fun i => i ≠ j)).map
        (fun m => ((m : ℕ) : ℤ) - (j : ℤ))).prod
      = ∏ m ∈ sub.toFinset.erase j, ((m : ℤ) - (j : ℤ)) := by
    rw [← hfin, ← List.prod_toFinset _ hfnd]
  rw [hprod]
  refine erase_prod_sub_dvd_factorial nusers j sub.toFinset ?_
    (List.mem_toFinset.mpr hj)
  intro m hm
  exact hsub m (List.mem_toFinset.mp hm)

lemma isss_den_ne_zero (sub : List ℕ) (j : ℕ) :
    ((sub.filter (fun i => i ≠ j)).map (fun m => ((m : ℕ) : ℤ) - (j : ℤ))).prod ≠ 0 := by
  refine List.prod_ne_zero ?_
  intro h0
  obtain ⟨m, hm, heq⟩ := List.mem_map.mp h0
  have hmne : m ≠ j := by
    have := (List.mem_filter.mp hm).2
    simpa using this
  have : (m : ℤ) = (j : ℤ) := by linarith [heq]
  exact hmne (by exact_mod_cast this)

lemma isssLagrange_mul_den (nusers : ℕ) (sub : List ℕ) (hnd : sub.Nodup)
    (hsub : ∀ i ∈ sub, 1 ≤ i ∧ i ≤ nusers) {j : ℕ} (hj : j ∈ sub) :
    isssLagrange ((Nat.factorial nusers : ℕ) : ℤ) sub j *
      ((sub.filter (fun i => i ≠ j)).map (fun m => ((m : ℕ) : ℤ) - (j : ℤ))).prod
    = ((Nat.factorial nusers : ℕ) : ℤ) *
      ((sub.filter (fun i => i ≠ j)).map (fun m => ((m : ℕ) : ℤ))).prod := by
  have hden := isss_den_ne_zero sub j
  have hdvd : ((sub.filter (fun i => i ≠ j)).map
        (fun m => ((m : ℕ) : ℤ) - (j : ℤ))).prod
      ∣ ((Nat.factorial nusers : ℕ) : ℤ) *
        ((sub.filter (fun i => i ≠ j)).map (fun m => ((m : ℕ) : ℤ))).prod :=
    dvd_mul_of_dvd_left (isss_den_dvd nusers sub hnd hsub hj) _
  obtain ⟨c, hc⟩ := hdvd
  show (((Nat.factorial nusers : ℕ) : ℤ) *
      ((sub.filter (fun i => i ≠ j)).map (fun m => ((m : ℕ) : ℤ))).prod).fdiv
        (((sub.filter (fun i => i ≠ j)).map
          (fun m => ((m : ℕ) : ℤ) - (j : ℤ))).prod) *
      ((sub.filter (fun i => i ≠ j)).map
        (fun m => ((m : ℕ) : ℤ) - (j : ℤ))).prod = _
  rw [hc, Int.mul_fdiv_cancel_left c hden, mul_comm]

lemma isssLagrange_cast_rat (nusers : ℕ) (sub : List ℕ) (hnd : sub.Nodup)
    (hsub : ∀ i ∈ sub, 1 ≤ i ∧ i ≤ nusers) {j : ℕ} (hj : j ∈ sub) :
    ((isssLagrange ((Nat.factorial nusers : ℕ) : ℤ) sub j : ℤ) : ℚ)
      = ((Nat.factorial nusers : ℕ) : ℚ) *
        ((∏ m ∈ sub.toFinset.erase j, ((m : ℕ) : ℚ)) *
          (∏ m ∈ sub.toFinset.erase j, (((m : ℕ) : ℚ) - ((j : ℕ) : ℚ)))⁻¹) := by
  have hfin : (sub.filter (fun i => i ≠ j)).toFinset = sub.toFinset.erase j :=
    filter_toFinset_erase sub j
  have hfnd : (sub.filter (fun i => i ≠ j)).Nodup := hnd.filter _
  have hmul := isssLagrange_mul_den nusers sub hnd hsub hj
  have hdenne := isss_den_ne_zero sub j
  have hdenQ : ((((sub.filter (fun i => i ≠ j)).map
        (fun m => ((m : ℕ) : ℤ) - (j : ℤ))).prod : ℤ) : ℚ)
      = ∏ m ∈ sub.toFinset.erase j, (((m : ℕ) : ℚ) - ((j : ℕ) : ℚ)) := by
    rw [Int.cast_list_prod, List.map_map]
    have hcomp : ((fun z : ℤ => (z : ℚ)) ∘ (fun m : ℕ => ((m : ℕ) : ℤ) - (j : ℤ)))
        = fun m : ℕ => ((m : ℕ) : ℚ) - ((j : ℕ) : ℚ) := by
      funext m
      simp only [Function.comp_apply]
      push_cast
      ring
    rw [hcomp, ← hfin, ← List.prod_toFinset _ hfnd]
  have hnumQ : ((((sub.filter (fun i => i ≠ j)).map
        (fun m => ((m : ℕ) : ℤ))).prod : ℤ) : ℚ)
      = ∏ m ∈ sub.toFinset.erase j, ((m : ℕ) : ℚ) := by
    rw [Int.cast_list_prod, List.map_map]
    have hcomp : ((fun z : ℤ => (z : ℚ)) ∘ (fun m : ℕ => ((m : ℕ) : ℤ)))
        = fun m : ℕ => ((m : ℕ) : ℚ) := by
      funext m
      simp only [Function.comp_apply]
      push_cast
      ring
    rw [hcomp, ← hfin, ← List.prod_toFinset _ hfnd]
  have hdenQne : (∏ m ∈ sub.toFinset.erase j, (((m : ℕ) : ℚ) - ((j : ℕ) : ℚ))) ≠ 0 := by
    rw [← hdenQ]
    exact_mod_cast hdenne
  have hcastmul := congrArg (fun z : ℤ => (z : ℚ)) hmul
  simp only [Int.cast_mul] at hcastmul
  rw [hdenQ, hnumQ] at hcastmul
  have hsolve := hcastmul
  field_simp
  push_cast at hsolve ⊢
  rw [hsolve]

/-- The central identity behind ISSS.reconstruct and TJLS.share_combine:
for any integer polynomial (as a Horner coefficient list) of degree below
the quorum size, the lagrange-weighted sum of its values at the quorum's
indices is exactly delta times its constant term, over the plain integers. -/
lemma isss_weighted_sum (nusers : ℕ) (coeffs : List ℤ) (sub : List ℕ)
    (hnd : sub.Nodup) (hsub : ∀ i ∈ sub, 1 ≤ i ∧ i ≤ nusers)
    (hlen : coeffs.length ≤ sub.length) :
    (sub.map (fun i => horner coeffs ((i : ℕ) : ℤ) *
        isssLagrange ((Nat.factorial nusers : ℕ) : ℤ) sub i)).sum
      = ((Nat.factorial nusers : ℕ) : ℤ) * horner coeffs 0 := by
  have hinj : Function.Injective (fun m : ℕ => ((m : ℕ) : ℚ)) := by
    intro a b hab
    have hab' : ((a : ℕ) : ℚ) = ((b : ℕ) : ℚ) := hab
    exact_mod_cast hab'
  apply @Int.cast_injective ℚ _ _
  show (((sub.map (fun i => horner coeffs ((i : ℕ) : ℤ) *
      isssLagrange ((Nat.factorial nusers : ℕ) : ℤ) sub i)).sum : ℤ) : ℚ) = _
  have hlist : (((sub.map (fun i => horner coeffs ((i : ℕ) : ℤ) *
      isssLagrange ((Nat.factorial nusers : ℕ) : ℤ) sub i)).sum : ℤ) : ℚ)
      = (sub.map (fun i =>
          (hornPoly (coeffs.map (fun c : ℤ => (c : ℚ)))).eval ((i : ℕ) : ℚ) *
          ((isssLagrange ((Nat.factorial nusers : ℕ) : ℤ) sub i : ℤ) : ℚ))).sum := by
    rw [Int.cast_list_sum, List.map_map]
    refine congrArg List.sum (List.map_congr_left (fun i hi => ?_))
    simp only [Function.comp_apply, Int.cast_mul]
    congr 1
    have hmap := horner_map (Int.castRingHom ℚ) coeffs ((i : ℕ) : ℤ)
    simp only [Int.castRingHom, RingHom.coe_mk, MonoidHom.coe_mk, OneHom.coe_mk] at hmap
    rw [hornPoly_eval]
    rw [show (((i : ℕ) : ℤ) : ℚ) = ((i : ℕ) : ℚ) from by push_cast; ring] at hmap
    exact hmap
  rw [hlist, ← List.sum_toFinset _ hnd]
  have hsum1 : ∑ i ∈ sub.toFinset,
      ((hornPoly (coeffs.map (fun c : ℤ => (c : ℚ)))).eval ((i : ℕ) : ℚ) *
        ((isssLagrange ((Nat.factorial nusers : ℕ) : ℤ) sub i : ℤ) : ℚ))
      = ((Nat.factorial nusers : ℕ) : ℚ) * ∑ i ∈ sub.toFinset,
        ((hornPoly (coeffs.map (fun c : ℤ => (c : ℚ)))).eval ((i : ℕ) : ℚ) *
          ((∏ m ∈ sub.toFinset.erase i, ((m : ℕ) : ℚ)) *
            (∏ m ∈ sub.toFinset.erase i, (((m : ℕ) : ℚ) - ((i : ℕ) : ℚ)))⁻¹)) := by
    rw [Finset.mul_sum]
    refine Finset.sum_congr rfl (fun i hi => ?_)
    rw [isssLagrange_cast_rat nusers sub hnd hsub (List.mem_toFinset.mp hi)]
    ring
  rw [hsum1]
  have himg : ∑ i ∈ sub.toFinset,
      ((hornPoly (coeffs.map (fun c : ℤ => (c : ℚ)))).eval ((i : ℕ) : ℚ) *
        ((∏ m ∈ sub.toFinset.erase i, ((m : ℕ) : ℚ)) *
          (∏ m ∈ sub.toFinset.erase i, (((m : ℕ) : ℚ) - ((i : ℕ) : ℚ)))⁻¹))
      = ∑ xj ∈ sub.toFinset.image (fun m : ℕ => ((m : ℕ) : ℚ)),
        ((hornPoly (coeffs.map (fun c : ℤ => (c : ℚ)))).eval xj *
          ((∏ xm ∈ (sub.toFinset.image (fun m : ℕ => ((m : ℕ) : ℚ))).erase xj, xm) *
            (∏ xm ∈ (sub.toFinset.image (fun m : ℕ => ((m : ℕ) : ℚ))).erase xj,
              (xm - xj))⁻¹)) := by
    rw [Finset.sum_image (fun a _ b _ hab => hinj hab)]
    refine Finset.sum_congr rfl (fun i hi => ?_)
    have herase : (sub.toFinset.image (fun m : ℕ => ((m : ℕ) : ℚ))).erase ((i : ℕ) : ℚ)
        = (sub.toFinset.erase i).image (fun m : ℕ => ((m : ℕ) : ℚ)) :=
      (Finset.image_erase hinj sub.toFinset i).symm
    rw [herase, Finset.prod_image (fun a _ b _ hab => hinj hab),
      Finset.prod_image (fun a _ b _ hab => hinj hab)]
  rw [himg]
  have hdeg : (hornPoly (coeffs.map (fun c : ℤ => (c : ℚ)))).degree
      < ((sub.toFinset.image (fun m : ℕ => ((m : ℕ) : ℚ))).card : WithBot ℕ) := by
    refine lt_of_lt_of_le (hornPoly_degree _) ?_
    rw [List.length_map, Finset.card_image_of_injective _ hinj,
      List.toFinset_card_of_nodup hnd]
    exact_mod_cast WithBot.coe_le_coe.mpr hlen
  have hinterp := eval_zero_eq_lagrange_sum
    (sub.toFinset.image (fun m : ℕ => ((m : ℕ) : ℚ)))
    (hornPoly (coeffs.map (fun c : ℤ => (c : ℚ)))) hdeg
  rw [← hinterp, hornPoly_eval]
  have hzero := horner_map (Int.castRingHom ℚ) coeffs 0
  simp only [Int.castRingHom, RingHom.coe_mk, MonoidHom.coe_mk, OneHom.coe_mk,
    Int.cast_zero] at hzero
  rw [← hzero]
  push_cast
  ring

end ISSSProof

/-! ## TJLS dropout correctness (towards C1) -/

section TJLSProof

lemma list_sum_mul_left {α : Type} (l : List α) (c : ℤ) (f : α → ℤ) :
    (l.map (fun v => c * f v)).sum = c * (l.map f).sum := by
  induction l with
  | nil => simp
  | cons a as ih =>
      simp only [List.map_cons, List.sum_cons, ih]
      ring

lemma list_sum_map_add {α : Type} (l : List α) (f g : α → ℤ) :
    (l.map (fun a => f a + g a)).sum = (l.map f).sum + (l.map g).sum := by
  induction l with
  | nil => simp
  | cons a as ih =>
      simp only [List.map_cons, List.sum_cons, ih]
      ring

lemma sum_map_swap (sq drp : List ℕ) (f : ℕ → ℕ → ℤ) (lag : ℕ → ℤ) :
    (sq.map (fun u => (drp.map (fun v => f v u)).sum * lag u)).sum
      = (drp.map (fun v => (sq.map (fun u => f v u * lag u)).sum)).sum := by
  induction drp with
  | nil => simp
  | cons v vs ih =>
      simp only [List.map_cons, List.sum_cons]
      rw [← ih, ← list_sum_map_add]
      congr 1
      refine List.map_congr_left (fun u hu => ?_)
      ring

variable {n h : ℕ} (hn : 2 ≤ n) (hc : Nat.Coprime h (n * n))

lemma one_repr : CipherRepr n h hc 1 0 0 := by
  unfold CipherRepr
  simp

include hn in
/-- The exponent bookkeeping of the share_combine product loop. -/
lemma tjlShareCombine_repr (lag : ℕ → ℤ) (g : ℕ → ℤ) (sq : List ℕ) :
    CipherRepr n h hc
      (tjlShareCombine n lag (sq.map (fun u => (u, tjlShareProtect n h (g u)))))
      0 ((sq.map (fun u => g u * lag u)).sum) := by
  unfold tjlShareCombine tjlShareProtect
  rw [List.foldl_map]
  suffices hgen : ∀ (us : List ℕ) (acc : ℕ) (E : ℤ), CipherRepr n h hc acc 0 E →
      CipherRepr n h hc
        (us.foldl (fun a u =>
          a * powmod (jlEncrypt n h (g u) 0) (lag u) (n * n) % (n * n)) acc)
        0 (E + (us.map (fun u => g u * lag u)).sum) by
    have hres := hgen sq 1 0 (one_repr hc)
    simpa using hres
  intro us
  induction us with
  | nil =>
      intro acc E hacc
      simpa using hacc
  | cons u us ih =>
      intro acc E hacc
      rw [List.foldl_cons, List.map_cons, List.sum_cons]
      have henc := jlEncrypt_repr hn hc (g u) 0
      have hpow := powmod_repr_unit hn hc henc (lag u)
      have hadd := jlAdd_repr hc hacc hpow
      have hstep := ih (jlAdd n acc (powmod (jlEncrypt n h (g u) 0) (lag u) (n * n)))
        (E + g u * lag u) hadd
      rw [show E + (g u * lag u + (us.map (fun u => g u * lag u)).sum)
          = E + g u * lag u + (us.map (fun u => g u * lag u)).sum from by ring]
      exact hstep

end TJLSProof

/-- C1: for a TJLS instance with nusers users, keys summing against the
server key, a dropped set D and an online set with plaintext bound
delta^2 * sum x < n: when every quorum member u (a surviving, online user)
sums its ISSS shares of the dropped users' keys and protects zero under
that sum (share_protect), the server combines at least threshold such
zero-shares with share_combine (using the lagrange coefficients of the
quorum), and agg is called on the online ciphertexts plus the combined
zero-share, then agg returns exactly the sum of the online users' inputs —
the value direct aggregation of the online subset alone would give.
The first conjunct identifies each used key share as the corresponding
ISSS.share output. -/
theorem C1_tjls_dropout_recovery
    (n h N : ℕ) (hn : 2 ≤ n) (hc : Nat.Coprime h (n * n))
    (hcop : Nat.Coprime (Nat.factorial N) n)
    (keys : ℕ → ℤ) (x : ℕ → ℕ) (randOf : ℕ → List ℤ) (s0 : ℤ)
    (online dropped sq : List ℕ)
    (hone : online ≠ [])
    (hs0 : (online.map keys).sum + (dropped.map keys).sum + s0 = 0)
    (hsqnd : sq.Nodup) (hsq : ∀ u ∈ sq, 1 ≤ u ∧ u ≤ N)
    (hsurv : ∀ u ∈ sq, u ∈ online)
    (hquorum : ∀ v ∈ dropped, (randOf v).length + 1 ≤ sq.length)
    (hbound : (Nat.factorial N) ^ 2 * (online.map x).sum < n) :
    (∀ v ∈ dropped, ∀ u ∈ sq,
      (u, horner (randOf v ++ [keys v * ((Nat.factorial N : ℕ) : ℤ)]) ((u : ℕ) : ℤ))
        ∈ isssShare (keys v) ((Nat.factorial N : ℕ) : ℤ) (randOf v) N)
    ∧ tjlAgg n h (Nat.factorial N) s0
        (online.map (fun i => jlEncrypt n h (keys i) (x i)))
        (some (tjlShareCombine n (isssLagrange ((Nat.factorial N : ℕ) : ℤ) sq)
          (sq.map (fun u =>
            (u, tjlShareProtect n h
              ((dropped.map (fun v =>
                horner (randOf v ++ [keys v * ((Nat.factorial N : ℕ) : ℤ)])
                  ((u : ℕ) : ℤ))).sum))))))
        = (((online.map x).sum : ℕ) : ℤ) := by
  constructor
  · intro v hv u hu
    unfold isssShare
    have h1 : 1 ≤ u := (hsq u hu).1
    have h2 : u ≤ N := (hsq u hu).2
    refine List.mem_map.mpr ⟨u - 1, ?_, ?_⟩
    · rw [List.mem_range]; omega
    · have hplus : u - 1 + 1 = u := by omega
      rw [hplus]
  · -- the combined zero-share carries mask exponent delta^2 * sum of the
    -- dropped keys
    have hz := tjlShareCombine_repr hn hc
      (isssLagrange ((Nat.factorial N : ℕ) : ℤ) sq)
      (fun u => (dropped.map (fun v =>
        horner (randOf v ++ [keys v * ((Nat.factorial N : ℕ) : ℤ)])
          ((u : ℕ) : ℤ))).sum)
      sq
    have hswap : (sq.map (fun u =>
        (dropped.map (fun v =>
          horner (randOf v ++ [keys v * ((Nat.factorial N : ℕ) : ℤ)])
            ((u : ℕ) : ℤ))).sum *
          isssLagrange ((Nat.factorial N : ℕ) : ℤ) sq u)).sum
        = ((Nat.factorial N : ℕ) : ℤ) ^ 2 * (dropped.map keys).sum := by
      rw [sum_map_swap sq dropped
        (fun v u => horner (randOf v ++ [keys v * ((Nat.factorial N : ℕ) : ℤ)])
          ((u : ℕ) : ℤ))
        (isssLagrange ((Nat.factorial N : ℕ) : ℤ) sq)]
      have hper : ∀ v ∈ dropped,
          (sq.map (fun u =>
            horner (randOf v ++ [keys v * ((Nat.factorial N : ℕ) : ℤ)]) ((u : ℕ) : ℤ) *
              isssLagrange ((Nat.factorial N : ℕ) : ℤ) sq u)).sum
          = ((Nat.factorial N : ℕ) : ℤ) ^ 2 * keys v := by
        intro v hv
        have hws := isss_weighted_sum N
          (randOf v ++ [keys v * ((Nat.factorial N : ℕ) : ℤ)]) sq hsqnd hsq
          (by rw [List.length_append, List.length_singleton]; exact hquorum v hv)
        rw [horner_zero_append] at hws
        rw [hws]
        ring
      rw [List.map_congr_left hper]
      rw [list_sum_mul_left dropped (((Nat.factorial N : ℕ) : ℤ) ^ 2) keys]
    rw [hswap] at hz
    obtain ⟨o0, orest, rfl⟩ : ∃ o0 orest, online = o0 :: orest := by
      cases online with
      | nil => exact absurd rfl hone
      | cons a as => exact ⟨a, as, rfl⟩
    set zc := tjlShareCombine n (isssLagrange ((Nat.factorial N : ℕ) : ℤ) sq)
      (sq.map (fun u =>
        (u, tjlShareProtect n h
          ((dropped.map (fun v =>
            horner (randOf v ++ [keys v * ((Nat.factorial N : ℕ) : ℤ)])
              ((u : ℕ) : ℤ))).sum)))) with hzc
    simp only [List.map_cons]
    show jlRawDecrypt n h s0
      (jlAdd n (powmod (jlAggFold n (jlEncrypt n h (keys o0) (x o0))
          (orest.map (fun i => jlEncrypt n h (keys i) (x i))))
        (((Nat.factorial N) ^ 2 : ℕ) : ℤ) (n * n)) zc) (Nat.factorial N) false = _
    set yfold := jlAggFold n (jlEncrypt n h (keys o0) (x o0))
      (orest.map (fun i => jlEncrypt n h (keys i) (x i))) with hyfold
    have hacc := jlEncrypt_repr hn hc (keys o0) (x o0)
    have hps : (orest.map (fun i => (keys i, x i))).map
        (fun p => jlEncrypt n h p.1 p.2)
        = orest.map (fun i => jlEncrypt n h (keys i) (x i)) := by
      rw [List.map_map]
      rfl
    have hfold := jlAggFold_repr hn hc (orest.map (fun i => (keys i, x i))) hacc
    rw [hps] at hfold
    have hfst : ((orest.map (fun i => (keys i, x i))).map Prod.fst)
        = orest.map keys := by rw [List.map_map]; rfl
    have hsnd : ((orest.map (fun i => (keys i, x i))).map Prod.snd)
        = orest.map x := by rw [List.map_map]; rfl
    rw [hfst, hsnd] at hfold
    rw [← hyfold] at hfold
    have hpow := powmod_repr_pow hc hfold ((Nat.factorial N) ^ 2)
    have htot := jlAdd_repr hc hpow hz
    have heff : (if false = false ∧ Nat.factorial N ≠ 1
        then (Nat.factorial N) ^ 2 else Nat.factorial N) = (Nat.factorial N) ^ 2 := by
      by_cases h1 : Nat.factorial N = 1
      · rw [h1]; simp
      · simp [h1]
    unfold jlRawDecrypt
    rw [heff]
    have hR : (x o0 + (orest.map x).sum) < n := by
      have hexp : (x o0 + (orest.map x).sum) ≤
          (Nat.factorial N) ^ 2 * (x o0 + (orest.map x).sum) :=
        Nat.le_mul_of_pos_left _ (by positivity)
      have hsum : (Nat.factorial N) ^ 2 * (((o0 :: orest).map x).sum)
          = (Nat.factorial N) ^ 2 * (x o0 + (orest.map x).sum) := by simp
      omega
    have hdR : (Nat.factorial N) ^ 2 * (x o0 + (orest.map x).sum) < n := by
      have hsum : (Nat.factorial N) ^ 2 * (((o0 :: orest).map x).sum)
          = (Nat.factorial N) ^ 2 * (x o0 + (orest.map x).sum) := by simp
      omega
    have hcop2 : Nat.Coprime ((Nat.factorial N) ^ 2) n := Nat.Coprime.pow_left 2 hcop
    have htot' : CipherRepr n h hc
        (jlAdd n (powmod yfold (((Nat.factorial N) ^ 2 : ℕ) : ℤ) (n * n)) zc)
        ((Nat.factorial N) ^ 2 * (x o0 + (orest.map x).sum))
        ((keys o0 + (orest.map keys).sum) * (((Nat.factorial N) ^ 2 : ℕ) : ℤ)
          + ((Nat.factorial N : ℕ) : ℤ) ^ 2 * (dropped.map keys).sum) := by
      have heq1 : (x o0 + (orest.map x).sum) * (Nat.factorial N) ^ 2
          = (Nat.factorial N) ^ 2 * (x o0 + (orest.map x).sum) := by ring
      rw [← heq1]
      exact htot
    have hcancel : ((keys o0 + (orest.map keys).sum) * (((Nat.factorial N) ^ 2 : ℕ) : ℤ)
          + ((Nat.factorial N : ℕ) : ℤ) ^ 2 * (dropped.map keys).sum)
        + (((Nat.factorial N) ^ 2 : ℕ) : ℤ) * s0 = 0 := by
      have hs0' : keys o0 + (orest.map keys).sum + (dropped.map keys).sum + s0 = 0 := by
        simp only [List.map_cons, List.sum_cons] at hs0
        linarith [hs0]
      push_cast
      linear_combination ((Nat.factorial N : ℤ)) ^ 2 * hs0'
    have hfinal := jlRawDecryptCore_delta hn hc hcop2 hR hdR htot' hcancel
    rw [hfinal]
    simp

/-- Witness for C1: n = 143 = 11*13, h = 2, three users with threshold 2,
keys 5, 7, 9 (server key -21), user 3 dropped (its key shared with random
coefficient 1), users 1 and 2 online with inputs 1 and 2, both providing
zero-shares; agg recovers 1 + 2 = 3. -/
theorem C1_witness :
    tjlAgg 143 2 (Nat.factorial 3) (-21)
      ([1, 2].map (fun i => jlEncrypt 143 2 ([5, 7, 9].getD (i - 1) 0) ([1, 2].getD (i - 1) 0)))
      (some (tjlShareCombine 143 (isssLagrange ((Nat.factorial 3 : ℕ) : ℤ) [1, 2])
        ([1, 2].map (fun u =>
          (u, tjlShareProtect 143 2
            (([3].map (fun v =>
              horner ([1] ++ [([5, 7, 9].getD (v - 1) 0) * ((Nat.factorial 3 : ℕ) : ℤ)])
                ((u : ℕ) : ℤ))).sum))))))
      = ((([1, 2].map (fun i => ([1, 2].getD (i - 1) 0))).sum : ℕ) : ℤ) :=
  (C1_tjls_dropout_recovery 143 2 3 (by norm_num) (by decide) (by decide)
    (fun i => [5, 7, 9].getD (i - 1) 0) (fun i => [1, 2].getD (i - 1) 0)
    (fun _ => [1]) (-21) [1, 2] [3] [1, 2]
    (by decide) (by decide) (by decide) (by decide) (by decide)
    (by decide) (by decide)).2

/-- C4: over the plain integers with delta = nusers!, for every subset (of
size at least the threshold) of the shares produced by ISSS.share with
distinct indices: the shares are ISSS.share outputs (first conjunct); every
Lagrange denominator divides delta times the numerator exactly (second);
the lagrange-weighted share sum is exactly divisible by delta^2 (third);
and ISSS.reconstruct returns exactly the secret (fourth). -/
theorem C4_isss_exact_integer_reconstruct (nusers : ℕ) (secret : ℤ)
    (rand : List ℤ) (sub : List ℕ) (hnd : sub.Nodup)
    (hsub : ∀ i ∈ sub, 1 ≤ i ∧ i ≤ nusers)
    (hlen : rand.length + 1 ≤ sub.length) :
    (∀ i ∈ sub,
      (i, horner (rand ++ [secret * ((Nat.factorial nusers : ℕ) : ℤ)]) ((i : ℕ) : ℤ))
        ∈ isssShare secret ((Nat.factorial nusers : ℕ) : ℤ) rand nusers)
    ∧ (∀ j ∈ sub,
        ((sub.filter (fun i => i ≠ j)).map (fun m => ((m : ℕ) : ℤ) - (j : ℤ))).prod
          ∣ ((Nat.factorial nusers : ℕ) : ℤ) *
            ((sub.filter (fun i => i ≠ j)).map (fun m => ((m : ℕ) : ℤ))).prod)
    ∧ (((Nat.factorial nusers : ℕ) : ℤ) ^ 2 ∣
        ((sub.map (fun i =>
            (i, horner (rand ++ [secret * ((Nat.factorial nusers : ℕ) : ℤ)])
              ((i : ℕ) : ℤ)))).map
          (fun s => s.2 * isssLagrange ((Nat.factorial nusers : ℕ) : ℤ) sub s.1)).sum)
    ∧ isssReconstruct (rand.length + 1) ((Nat.factorial nusers : ℕ) : ℤ)
        (isssLagrange ((Nat.factorial nusers : ℕ) : ℤ) sub)
        (sub.map (fun i =>
          (i, horner (rand ++ [secret * ((Nat.factorial nusers : ℕ) : ℤ)])
            ((i : ℕ) : ℤ))))
        = .ok secret := by
  have hmapeq : (sub.map (fun i =>
      (i, horner (rand ++ [secret * ((Nat.factorial nusers : ℕ) : ℤ)])
        ((i : ℕ) : ℤ)))).map
        (fun s => s.2 * isssLagrange ((Nat.factorial nusers : ℕ) : ℤ) sub s.1)
      = sub.map (fun i =>
          horner (rand ++ [secret * ((Nat.factorial nusers : ℕ) : ℤ)]) ((i : ℕ) : ℤ) *
            isssLagrange ((Nat.factorial nusers : ℕ) : ℤ) sub i) := by
    rw [List.map_map]
    rfl
  have hwsum := isss_weighted_sum nusers
    (rand ++ [secret * ((Nat.factorial nusers : ℕ) : ℤ)]) sub hnd hsub
    (by rw [List.length_append, List.length_singleton]; omega)
  rw [horner_zero_append] at hwsum
  have hsum2 : (sub.map (fun i =>
      horner (rand ++ [secret * ((Nat.factorial nusers : ℕ) : ℤ)]) ((i : ℕ) : ℤ) *
        isssLagrange ((Nat.factorial nusers : ℕ) : ℤ) sub i)).sum
      = ((Nat.factorial nusers : ℕ) : ℤ) ^ 2 * secret := by
    rw [hwsum]
    ring
  refine ⟨?_, ?_, ?_, ?_⟩
  · intro i hi
    unfold isssShare
    have h1 : 1 ≤ i := (hsub i hi).1
    have h2 : i ≤ nusers := (hsub i hi).2
    refine List.mem_map.mpr ⟨i - 1, ?_, ?_⟩
    · rw [List.mem_range]; omega
    · have hplus : i - 1 + 1 = i := by omega
      rw [hplus]
  · intro j hj
    exact dvd_mul_of_dvd_left (isss_den_dvd nusers sub hnd hsub hj) _
  · rw [hmapeq, hsum2]
    exact Dvd.intro secret rfl
  · unfold isssReconstruct
    rw [if_neg (by rw [List.length_map]; omega)]
    have hfst : (sub.map (fun i =>
        (i, horner (rand ++ [secret * ((Nat.factorial nusers : ℕ) : ℤ)])
          ((i : ℕ) : ℤ)))).map Prod.fst = sub := by
      rw [List.map_map]
      exact List.map_id sub
    rw [hfst, if_neg (by simp [(dupScan_nil_eq_false_iff sub).mpr hnd])]
    rw [hmapeq, hsum2]
    have hfactpos : ((Nat.factorial nusers : ℕ) : ℤ) ^ 2 ≠ 0 := by
      have := Nat.factorial_pos nusers
      positivity
    rw [Int.mul_fdiv_cancel_left secret hfactpos]

/-- Witness for C4: three users (delta = 6), secret 4, one random
coefficient 5 (threshold 2), reconstructing from the shares at indices 3
and 1. -/
theorem C4_witness :
    isssReconstruct 2 ((Nat.factorial 3 : ℕ) : ℤ)
      (isssLagrange ((Nat.factorial 3 : ℕ) : ℤ) [3, 1])
      ([3, 1].map (fun i =>
        (i, horner ([5] ++ [4 * ((Nat.factorial 3 : ℕ) : ℤ)]) ((i : ℕ) : ℤ))))
      = .ok 4 :=
  (C4_isss_exact_integer_reconstruct 3 4 [5] [3, 1] (by decide) (by decide)
    (by norm_num)).2.2.2

/-- C3: for every secret below p, threshold t = rand.length + 1 at most n,
and every subset of at least t of the shares produced by SSS.share with
pairwise distinct indices, reconstruct with the lagrange coefficients of
that same subset returns exactly the secret — any size-t-or-more subset,
not only a prefix.  (First conjunct: the stated shares are the subset of
SSS.share's output selected by the chosen indices.) -/
theorem C3_sss_reconstruct_any_subset (p : ℕ) [Fact p.Prime]
    (secret nusers : ℕ) (rand : List (ZMod p)) (hs : secret < p)
    (hN : nusers < p) (sub : List ℕ) (hnd : sub.Nodup)
    (hsub : ∀ i ∈ sub, 1 ≤ i ∧ i ≤ nusers)
    (hlen : rand.length + 1 ≤ sub.length) :
    (∀ i ∈ sub,
      (i, horner (rand ++ [(secret : ZMod p)]) ((i : ℕ) : ZMod p))
        ∈ sssShare p secret rand nusers)
    ∧ sssReconstruct p (rand.length + 1) (sssLagrange p sub)
        (sub.map (fun i => (i, horner (rand ++ [(secret : ZMod p)]) ((i : ℕ) : ZMod p))))
        = .ok secret := by
  haveI : NeZero p := ⟨(Fact.out : p.Prime).ne_zero⟩
  constructor
  · intro i hi
    unfold sssShare
    have h1 : 1 ≤ i := (hsub i hi).1
    have h2 : i ≤ nusers := (hsub i hi).2
    refine List.mem_map.mpr ⟨i - 1, ?_, ?_⟩
    · rw [List.mem_range]; omega
    · have : i - 1 + 1 = i := by omega
      rw [this]
  · set coeffs : List (ZMod p) := rand ++ [(secret : ZMod p)] with hcoeffs
    set L : List (ZMod p) := sub.map (fun i => ((i : ℕ) : ZMod p)) with hL
    have hlt : ∀ i ∈ sub, i < p := fun i hi => by
      have := (hsub i hi).2
      omega
    have hLnd : L.Nodup := cast_list_nodup sub hnd hlt
    set S : Finset (ZMod p) := L.toFinset with hS
    have hcard : S.card = sub.length := by
      rw [hS, List.toFinset_card_of_nodup hLnd, hL, List.length_map]
    unfold sssReconstruct
    have hlen1 : (sub.map
        (fun i => (i, horner coeffs ((i : ℕ) : ZMod p)))).length = sub.length := by
      rw [List.length_map]
    rw [if_neg (by rw [hlen1]; omega)]
    have hdupl : (sub.map (fun i => (i, horner coeffs ((i : ℕ) : ZMod p)))).map
        (fun s => ((s.1 : ℕ) : ZMod p)) = L := by
      rw [List.map_map, hL]
      rfl
    rw [hdupl, if_neg (by
      rw [(dupScan_nil_eq_false_iff L).mpr hLnd]
      simp)]
    have hsum : ((sub.map (fun i => (i, horner coeffs ((i : ℕ) : ZMod p)))).map
        (fun s => s.2 * sssLagrange p sub ((s.1 : ℕ) : ZMod p))).sum
        = ∑ xj ∈ S, (hornPoly coeffs).eval xj * sssLagrange p sub xj := by
      rw [List.map_map]
      have hmap : ((fun s : ℕ × ZMod p => s.2 * sssLagrange p sub ((s.1 : ℕ) : ZMod p)) ∘
          (fun i : ℕ => (i, horner coeffs ((i : ℕ) : ZMod p))))
          = (fun xj : ZMod p => (hornPoly coeffs).eval xj * sssLagrange p sub xj) ∘
            (fun i : ℕ => ((i : ℕ) : ZMod p)) := by
        funext i
        simp [Function.comp, hornPoly_eval]
      rw [hmap, ← List.map_map]
      exact (List.sum_toFinset _ hLnd).symm
    rw [hsum]
    have hdeg : (hornPoly coeffs).degree < (S.card : WithBot ℕ) := by
      refine lt_of_lt_of_le (hornPoly_degree coeffs) ?_
      have h1 : coeffs.length = rand.length + 1 := by
        rw [hcoeffs, List.length_append, List.length_singleton]
      rw [h1]
      exact_mod_cast WithBot.coe_le_coe.mpr (by omega)
    have hinterp := eval_zero_eq_lagrange_sum S (hornPoly coeffs) hdeg
    have hlag : ∑ xj ∈ S, (hornPoly coeffs).eval xj * sssLagrange p sub xj
        = ∑ xj ∈ S, (hornPoly coeffs).eval xj *
          ((∏ xm ∈ S.erase xj, xm) * (∏ xm ∈ S.erase xj, (xm - xj))⁻¹) := by
      refine Finset.sum_congr rfl (fun xj _ => ?_)
      rw [sssLagrange_eq_finset sub hLnd xj]
    rw [hlag, ← hinterp, hornPoly_eval, hcoeffs, horner_zero_append,
      ZMod.val_natCast_of_lt hs]

end SSSProof

/-- Witness for C3: p = 11, secret 42 mod ... no — secret 7, threshold 3
(random coefficients 2 and 3), five users, reconstructing from the
non-prefix index subset 5, 2, 4. -/
theorem C3_witness :
    sssReconstruct 11 ([2, 3] : List (ZMod 11)).length.succ
      (sssLagrange 11 [5, 2, 4])
      ([5, 2, 4].map (fun i =>
        (i, horner (([2, 3] : List (ZMod 11)) ++ [((7 : ℕ) : ZMod 11)]) ((i : ℕ) : ZMod 11))))
      = .ok 7 := by
  haveI : Fact (Nat.Prime 11) := ⟨by norm_num⟩
  exact (C3_sss_reconstruct_any_subset 11 7 5 [2, 3] (by norm_num) (by norm_num)
    [5, 2, 4] (by decide) (by decide) (by norm_num)).2

/-! ## Error handling of reconstruct (towards C6) -/

lemma dupScan_nil_eq_true_iff {α : Type} [DecidableEq α] (l : List α) :
    dupScan [] l = true ↔ ¬ l.Nodup := by
  rcases hb : dupScan [] l with _ | _
  · have hnd := (dupScan_nil_eq_false_iff l).mp hb
    simp [hnd]
  · have hnnd : ¬ l.Nodup := by
      intro hnd
      have hfalse := (dupScan_nil_eq_false_iff l).mpr hnd
      rw [hb] at hfalse
      cases hfalse
    simp [hnnd]

/-- C6: reconstruct (both the field and the integer variant, with the
Lagrange coefficient table total on the indices) fails with
insufficientShares exactly when fewer than threshold shares are supplied;
fails with duplicateShare exactly when the quorum is large enough but two
shares carry the same index; and returns a value exactly when at least
threshold pairwise-distinct-index shares are supplied — an under-quorum
call never returns a value. -/
theorem C6_reconstruct_error_conditions (p threshold : ℕ)
    (lag : ZMod p → ZMod p) (shares : List (ℕ × ZMod p))
    (ithreshold : ℕ) (ilag : ℕ → ℤ) (idelta : ℤ) (ishares : List (ℕ × ℤ)) :
    ((sssReconstruct p threshold lag shares = .error .insufficientShares
        ↔ shares.length < threshold)
      ∧ (sssReconstruct p threshold lag shares = .error .duplicateShare
        ↔ threshold ≤ shares.length ∧
          ¬ (shares.map (fun s => ((s.1 : ℕ) : ZMod p))).Nodup)
      ∧ ((∃ v, sssReconstruct p threshold lag shares = .ok v)
        ↔ threshold ≤ shares.length ∧
          (shares.map (fun s => ((s.1 : ℕ) : ZMod p))).Nodup))
    ∧ ((isssReconstruct ithreshold idelta ilag ishares = .error .insufficientShares
        ↔ ishares.length < ithreshold)
      ∧ (isssReconstruct ithreshold idelta ilag ishares = .error .duplicateShare
        ↔ ithreshold ≤ ishares.length ∧ ¬ (ishares.map Prod.fst).Nodup)
      ∧ ((∃ v, isssReconstruct ithreshold idelta ilag ishares = .ok v)
        ↔ ithreshold ≤ ishares.length ∧ (ishares.map Prod.fst).Nodup)) := by
  constructor
  · unfold sssReconstruct
    by_cases hl : shares.length < threshold
    · rw [if_pos hl]
      refine ⟨⟨fun _ => hl, fun _ => rfl⟩, ?_, ?_⟩
      · constructor
        · intro h; simp at h
        · rintro ⟨hth, _⟩; omega
      · constructor
        · rintro ⟨v, hv⟩; simp at hv
        · rintro ⟨hth, _⟩; omega
    · rw [if_neg hl]
      by_cases hd : (shares.map (fun s => ((s.1 : ℕ) : ZMod p))).Nodup
      · rw [if_neg (by simp [(dupScan_nil_eq_false_iff _).mpr hd])]
        refine ⟨?_, ?_, ?_⟩
        · constructor
          · intro h; simp at h
          · intro h; omega
        · constructor
          · intro h; simp at h
          · rintro ⟨_, habs⟩; exact absurd hd habs
        · exact ⟨fun _ => ⟨by omega, hd⟩, fun _ => ⟨_, rfl⟩⟩
      · rw [if_pos ((dupScan_nil_eq_true_iff _).mpr hd)]
        refine ⟨?_, ?_, ?_⟩
        · constructor
          · intro h; simp at h
          · intro h; omega
        · exact ⟨fun _ => ⟨by omega, hd⟩, fun _ => rfl⟩
        · constructor
          · rintro ⟨v, hv⟩; simp at hv
          · rintro ⟨_, habs⟩; exact absurd habs hd
  · unfold isssReconstruct
    by_cases hl : ishares.length < ithreshold
    · rw [if_pos hl]
      refine ⟨⟨fun _ => hl, fun _ => rfl⟩, ?_, ?_⟩
      · constructor
        · intro h; simp at h
        · rintro ⟨hth, _⟩; omega
      · constructor
        · rintro ⟨v, hv⟩; simp at hv
        · rintro ⟨hth, _⟩; omega
    · rw [if_neg hl]
      by_cases hd : (ishares.map Prod.fst).Nodup
      · rw [if_neg (by simp [(dupScan_nil_eq_false_iff _).mpr hd])]
        refine ⟨?_, ?_, ?_⟩
        · constructor
          · intro h; simp at h
          · intro h; omega
        · constructor
          · intro h; simp at h
          · rintro ⟨_, habs⟩; exact absurd hd habs
        · exact ⟨fun _ => ⟨by omega, hd⟩, fun _ => ⟨_, rfl⟩⟩
      · rw [if_pos ((dupScan_nil_eq_true_iff _).mpr hd)]
        refine ⟨?_, ?_, ?_⟩
        · constructor
          · intro h; simp at h
          · intro h; omega
        · exact ⟨fun _ => ⟨by omega, hd⟩, fun _ => rfl⟩
        · constructor
          · rintro ⟨v, hv⟩; simp at hv
          · rintro ⟨_, habs⟩; exact absurd habs hd



/-- C2: with keys summing to zero against the server key, multiplying
Joye-Libert ciphertexts for a common round tag and decrypting once with the
server key returns the plaintext sum.  First conjunct: the two-user
homomorphism decrypt(protect(a,k1,tau) * protect(b,k2,tau)) = a + b whenever
k1 + k2 + serverKey = 0 and a + b < n.  Second conjunct: JLS.agg over all n
users' ciphertexts returns the sum of all inputs when the server key is
minus the sum of the user keys and the plaintext sum is below n. -/
theorem C2_homomorphism_and_agg (n h : ℕ) (hn : 2 ≤ n) (hc : Nat.Coprime h (n * n)) :
    (∀ (k1 k2 s0 : ℤ) (a b : ℕ), k1 + k2 + s0 = 0 → a + b < n →
      jlRawDecrypt n h s0 (jlAdd n (jlEncrypt n h k1 a) (jlEncrypt n h k2 b)) 1 false
        = ((a + b : ℕ) : ℤ))
    ∧ (∀ (ks : List ℤ) (xs : List ℕ), ks.length = xs.length → xs ≠ [] →
        xs.sum < n →
        jlAgg n h (-ks.sum) ((ks.zip xs).map (fun p => jlEncrypt n h p.1 p.2))
          = ((xs.sum : ℕ) : ℤ)) := by
  constructor
  · intro k1 k2 s0 a b hkey hab
    have h1 := jlEncrypt_repr hn hc k1 a
    have h2 := jlEncrypt_repr hn hc k2 b
    have hadd := jlAdd_repr hc h1 h2
    exact jlRawDecrypt_delta_one hn hc hab hadd (by linarith)
  · intro ks xs hlen hne hsum
    cases ks with
    | nil =>
        cases xs with
        | nil => simp at hne
        | cons x xs' => simp at hlen
    | cons k ks' =>
        cases xs with
        | nil => simp at hne
        | cons x xs' =>
            have hlen' : ks'.length = xs'.length := by simpa using hlen
            simp only [List.zip_cons_cons, List.map_cons, jlAgg]
            have hacc := jlEncrypt_repr hn hc k x
            have hfold := jlAggFold_repr hn hc (ks'.zip xs') hacc
            rw [List.map_fst_zip ks' xs' (le_of_eq hlen'),
              List.map_snd_zip ks' xs' (le_of_eq hlen'.symm)] at hfold
            have hM : x + xs'.sum < n := by simpa using hsum
            have hsum' : ((x :: xs').sum : ℕ) = x + xs'.sum := by simp
            rw [hsum']
            apply jlRawDecrypt_delta_one hn hc hM hfold
            simp
            ring

/-! ## Vector encoding lemmas -/

lemma vesBatch_cons_eq (es v : ℕ) (vs : List ℕ) (hv : v < 2 ^ es) :
    vesBatch es (v :: vs) = 2 ^ es * vesBatch es vs + v := by
  show v ||| (vesBatch es vs <<< es) = _
  rw [Nat.shiftLeft_eq, Nat.lor_comm, mul_comm, ← Nat.mul_add_lt_is_or hv]

lemma vesBatch_ne_zero (es : ℕ) :
    ∀ c : List ℕ, (∀ v ∈ c, v < 2 ^ es) → c ≠ [] → c.getLast? ≠ some 0 →
      vesBatch es c ≠ 0 := by
  intro c
  induction c with
  | nil => intro _ hne _; exact absurd rfl hne
  | cons v vs ih =>
      intro hlt _ hlast
      rw [vesBatch_cons_eq es v vs (hlt v (by simp))]
      cases vs with
      | nil =>
          simp only [List.getLast?_singleton] at hlast
          have hv0 : v ≠ 0 := fun h => hlast (by rw [h])
          have hnil : vesBatch es ([] : List ℕ) = 0 := rfl
          rw [hnil, mul_zero, zero_add]
          exact hv0
      | cons w ws =>
          have hvs : vesBatch es (w :: ws) ≠ 0 := by
            refine ih (fun u hu => hlt u (by simp [hu])) (by simp) ?_
            rwa [List.getLast?_cons_cons] at hlast
          have hpow : 0 < 2 ^ es := Nat.pos_pow_of_pos es (by norm_num)
          positivity

lemma vesDebatchF_fuel (es : ℕ) (hes : 1 ≤ es) :
    ∀ fuel : ℕ, ∀ fuel' b : ℕ, b ≤ fuel → b ≤ fuel' →
      vesDebatchF es fuel b = vesDebatchF es fuel' b := by
  intro fuel
  induction fuel with
  | zero =>
      intro fuel' b hb _
      interval_cases b
      cases fuel' <;> simp [vesDebatchF]
  | succ fuel ih =>
      intro fuel' b hb hb'
      by_cases h0 : b = 0
      · subst h0
        cases fuel' <;> simp [vesDebatchF]
      · obtain ⟨m, rfl⟩ : ∃ m, fuel' = m + 1 := ⟨fuel' - 1, by omega⟩
        show (if b = 0 then [] else _) = (if b = 0 then [] else _)
        rw [if_neg h0, if_neg h0]
        have hdrop : b >>> es ≤ b / 2 := by
          rw [Nat.shiftRight_eq_div_pow]
          exact Nat.div_le_div_left (Nat.one_lt_two_pow (by omega)) (by norm_num)
        have hhalf : b / 2 < b := Nat.div_lt_self (by omega) (by norm_num)
        have h1 : b >>> es ≤ fuel := by omega
        have h2 : b >>> es ≤ m := by omega
        rw [ih m (b >>> es) h1 h2]

lemma vesDebatch_step (es b : ℕ) (hes : 1 ≤ es) (hb : b ≠ 0) :
    vesDebatch es b = (b % 2 ^ es) :: vesDebatch es (b / 2 ^ es) := by
  obtain ⟨m, rfl⟩ : ∃ m, b = m + 1 := ⟨b - 1, by omega⟩
  show vesDebatchF es (m + 1) (m + 1) = _
  rw [vesDebatchF, if_neg hb, Nat.and_pow_two_sub_one_eq_mod, Nat.shiftRight_eq_div_pow]
  congr 1
  have hle : (m + 1) / 2 ^ es ≤ m := by
    have h2 : (m + 1) / 2 ^ es ≤ (m + 1) / 2 :=
      Nat.div_le_div_left (Nat.one_lt_two_pow (by omega)) (by norm_num)
    have h3 : (m + 1) / 2 ≤ m := by omega
    omega
  exact vesDebatchF_fuel es hes m ((m + 1) / 2 ^ es) ((m + 1) / 2 ^ es) hle le_rfl

lemma vesDebatch_batch (es : ℕ) (hes : 1 ≤ es) :
    ∀ c : List ℕ, (∀ v ∈ c, v < 2 ^ es) → c.getLast? ≠ some 0 →
      vesDebatch es (vesBatch es c) = c := by
  intro c
  induction c with
  | nil => intro _ _; rfl
  | cons v vs ih =>
      intro hlt hlast
      have hv : v < 2 ^ es := hlt v (by simp)
      rw [vesBatch_cons_eq es v vs hv]
      cases vs with
      | nil =>
          simp only [List.getLast?_singleton] at hlast
          have hv0 : v ≠ 0 := fun h => hlast (by rw [h])
          have hbv : 2 ^ es * vesBatch es [] + v = v := by
            show 2 ^ es * 0 + v = v
            ring
          rw [hbv, vesDebatch_step es v hes hv0, Nat.mod_eq_of_lt hv,
            Nat.div_eq_of_lt hv]
          rfl
      | cons w ws =>
          have hlast' : (w :: ws).getLast? ≠ some 0 := by
            rwa [List.getLast?_cons_cons] at hlast
          have hlt' : ∀ u ∈ w :: ws, u < 2 ^ es := fun u hu => hlt u (by simp [hu])
          have hbvs : vesBatch es (w :: ws) ≠ 0 :=
            vesBatch_ne_zero es (w :: ws) hlt' (by simp) hlast'
          have hb0 : 2 ^ es * vesBatch es (w :: ws) + v ≠ 0 := by
            have hpow : 0 < 2 ^ es := Nat.pos_pow_of_pos es (by norm_num)
            positivity
          rw [vesDebatch_step es _ hes hb0, Nat.mul_add_mod, Nat.mod_eq_of_lt hv,
            Nat.mul_add_div (Nat.pos_pow_of_pos es (by norm_num)),
            Nat.div_eq_of_lt hv, add_zero, ih hlt' hlast']

lemma vesChunksF_roundtrip (es k : ℕ) (hes : 1 ≤ es) (hk : 1 ≤ k) :
    ∀ fuel : ℕ, ∀ V : List ℕ, V.length ≤ fuel → (∀ v ∈ V, v < 2 ^ es) →
      (∀ c ∈ vesChunksF fuel k V, c.getLast? ≠ some 0) →
      ((vesChunksF fuel k V).map
        (fun c => vesDebatch es (vesBatch es c))).flatten = V := by
  intro fuel
  induction fuel with
  | zero =>
      intro V hlen _ _
      have hV : V = [] := List.length_eq_zero.mp (by omega)
      subst hV
      rfl
  | succ fuel ih =>
      intro V hlen hlt hlast
      by_cases hV : V = []
      · subst hV; rfl
      · rw [vesChunksF, if_neg hV] at hlast ⊢
        rw [List.map_cons, List.flatten_cons]
        have htake : vesDebatch es (vesBatch es (V.take k)) = V.take k := by
          refine vesDebatch_batch es hes (V.take k)
            (fun v hv => hlt v (List.mem_of_mem_take hv)) ?_
          exact hlast (V.take k) (by simp)
        have hdroplen : (V.drop k).length ≤ fuel := by
          rw [List.length_drop]
          have hpos : 0 < V.length := List.length_pos.mpr hV
          omega
        have hdrop := ih (V.drop k) hdroplen
          (fun v hv => hlt v (List.mem_of_mem_drop hv))
          (fun c hc => hlast c (by simp [hc]))
        rw [htake, hdrop, List.take_append_drop]

/-- C5 (amended): decode(encode(V)) = V for every in-bounds vector in which
the final element of each batch group is nonzero; _debatch stops at b = 0,
so trailing zero slots of a batch are dropped. -/
theorem C5_encode_decode_roundtrip (cfg : VESCfg) (V : List ℕ)
    (hes : 1 ≤ vesElementSize cfg) (hk : 1 ≤ vesCompRatio cfg)
    (hv : ∀ v ∈ V, v < 2 ^ cfg.valuesize)
    (hlast : ∀ c ∈ vesChunks (vesCompRatio cfg) V, c.getLast? ≠ some 0) :
    vesDecode cfg (vesEncode cfg V) = V := by
  unfold vesDecode vesEncode
  rw [List.map_map]
  unfold vesChunks at hlast ⊢
  rw [if_neg (by omega)] at hlast ⊢
  have hlt : ∀ v ∈ V, v < 2 ^ vesElementSize cfg := by
    intro v hv'
    calc v < 2 ^ cfg.valuesize := hv v hv'
    _ ≤ 2 ^ vesElementSize cfg := Nat.pow_le_pow_right (by norm_num) (by
        unfold vesElementSize; omega)
  have := vesChunksF_roundtrip (vesElementSize cfg) (vesCompRatio cfg) hes hk
    V.length V le_rfl hlt hlast
  simpa [Function.comp] using this

lemma vesElementSizeW : vesElementSize vesCfgW = 3 := by
  unfold vesElementSize vesCfgW
  rw [Nat.clog_one_right]

lemma vesCompRatioW : vesCompRatio vesCfgW = 2 := by
  unfold vesCompRatio
  rw [vesElementSizeW]
  decide

/-- C5 counterexample: the all-zero one-element vector is in bounds
(0 < 2^3) but decode(encode([0])) = [], not [0]: the round trip fails as
universally claimed. -/
theorem C5_counterexample : vesDecode vesCfgCE (vesEncode vesCfgCE [0]) ≠ [0] := by
  have hes : vesElementSize vesCfgCE = 3 := by
    unfold vesElementSize vesCfgCE
    rw [Nat.clog_one_right]
  unfold vesDecode vesEncode vesChunks vesCompRatio
  rw [hes]
  decide

/-- Witness for C5 at elementsize 3, compratio 2: the vector [1, 2, 3]
has groups [1, 2] and [3] with nonzero last elements, and decodes back. -/
theorem C5_witness :
    vesDecode vesCfgW (vesEncode vesCfgW [1, 2, 3]) = [1, 2, 3] :=
  C5_encode_decode_roundtrip vesCfgW [1, 2, 3]
    (by rw [vesElementSizeW]; norm_num)
    (by rw [vesCompRatioW]; norm_num)
    (by decide)
    (by rw [vesCompRatioW]; decide)

/-! ## Full-domain hash lemmas -/

lemma fdhLoop_coprime (N bitsize : ℕ) (digest : ℕ → ℕ → ℕ) (t : ℕ) :
    ∀ fuel k r : ℕ, fdhLoop N bitsize digest t k fuel = some r → Nat.gcd r N = 1 := by
  intro fuel
  induction fuel with
  | zero => intro k r hr; cases hr
  | succ fuel ih =>
      intro k r hr
      rw [fdhLoop] at hr
      by_cases hg : Nat.gcd (fdhCandidate bitsize digest t k) N = 1
      · rw [if_pos hg] at hr
        obtain rfl := Option.some_inj.mp hr
        exact hg
      · rw [if_neg hg] at hr
        exact ih (k + 1) r hr

lemma fdhLoop_det (N bitsize : ℕ) (digest : ℕ → ℕ → ℕ) (t : ℕ) :
    ∀ fuel fuel' k r r' : ℕ, fdhLoop N bitsize digest t k fuel = some r →
      fdhLoop N bitsize digest t k fuel' = some r' → r = r' := by
  intro fuel
  induction fuel with
  | zero => intro fuel' k r r' hr _; cases hr
  | succ fuel ih =>
      intro fuel' k r r' hr hr'
      cases fuel' with
      | zero => cases hr'
      | succ fuel' =>
          rw [fdhLoop] at hr hr'
          by_cases hg : Nat.gcd (fdhCandidate bitsize digest t k) N = 1
          · rw [if_pos hg] at hr hr'
            obtain rfl := Option.some_inj.mp hr
            obtain rfl := Option.some_inj.mp hr'
            rfl
          · rw [if_neg hg] at hr hr'
            exact ih fuel' (k + 1) r r' hr hr'

/-- C8: whenever FDH.H returns a value r for a round tag t, r is coprime to
N (a non-coprime candidate is never returned, the loop retries with the
incremented counter), and the returned value is a function of t alone:
two calls for the same tag return the same value, whatever fuel each was
given. -/
theorem C8_fdh_coprime_deterministic (N bitsize fuel fuel' t : ℕ)
    (digest : ℕ → ℕ → ℕ) (r r' : ℕ) :
    (fdhH N bitsize digest fuel t = some r → Nat.gcd r N = 1)
    ∧ (fdhH N bitsize digest fuel t = some r →
        fdhH N bitsize digest fuel' t = some r' → r = r') :=
  ⟨fun hr => fdhLoop_coprime N bitsize digest t fuel 1 r hr,
   fun hr hr' => fdhLoop_det N bitsize digest t fuel fuel' 1 r r' hr hr'⟩

/-- Witness for C8: with N = 9, an 8-byte candidate window and the toy
digest (t, c) -> t + c, the first candidate for tag 1 is 2, coprime to 9,
and both a fuel-3 and a fuel-4 run return it. -/
theorem C8_witness : Nat.gcd 2 9 = 1 ∧ (2 : ℕ) = 2 :=
  ⟨(C8_fdh_coprime_deterministic 9 8 3 4 1 (fun a b => a + b) 2 2).1 (by decide),
   (C8_fdh_coprime_deterministic 9 8 3 4 1 (fun a b => a + b) 2 2).2 (by decide) (by decide)⟩

/-- C7: for every sequence of random user key draws, the server key produced
by the setup loop of JLS.setup (and, identically, TD_TJLS.setup) plus the sum
of all user keys equals exactly 0 over the plain integers: the server key is
the unreduced negation of the accumulated sum. -/
theorem C7_setup_sum_to_zero (draws : List ℕ) :
    setupServerKey draws + (setupUserKeys draws).sum = 0 := by
  unfold setupServerKey setupUserKeys
  rw [setup_foldl_eq_sum]
  ring

/-- C9 (amended): every PField produced by an arithmetic operation (mul, add,
sub, pow, inverse) has its value in [0, p); the constructor itself stores the
encoded value unreduced. -/
theorem C9_pfield_arithmetic_range (p : ℤ) (hp : 0 < p) :
    (∀ a b : PFieldV, a.p = p →
      0 ≤ (pfMul a b).value ∧ (pfMul a b).value < p)
    ∧ (∀ a b : PFieldV, a.p = p →
      0 ≤ (pfAdd a b).value ∧ (pfAdd a b).value < p)
    ∧ (∀ a b : PFieldV, a.p = p →
      0 ≤ (pfSub a b).value ∧ (pfSub a b).value < p)
    ∧ (∀ a b : PFieldV, a.p = p → 1 < p →
      0 ≤ (pfPow a b).value ∧ (pfPow a b).value < p)
    ∧ (∀ a r : PFieldV, a.p = p → pfInverse a = some r →
      0 ≤ r.value ∧ r.value < p) := by
  have hfmod : ∀ z : ℤ, 0 ≤ z.fmod p ∧ z.fmod p < p := fun z =>
    ⟨Int.fmod_nonneg' z hp, Int.fmod_lt_of_pos z hp⟩
  have hinvmod : ∀ a : ℕ, 0 ≤ ((invmod a p.toNat : ℕ) : ℤ) ∧
      ((invmod a p.toNat : ℕ) : ℤ) < p := by
    intro a
    haveI : NeZero p.toNat := ⟨by omega⟩
    refine ⟨by positivity, ?_⟩
    have hval : invmod a p.toNat < p.toNat := ZMod.val_lt _
    omega
  refine ⟨fun a b hap => ?_, fun a b hap => ?_, fun a b hap => ?_,
    fun a b hap hp1 => ?_, fun a r hap hr => ?_⟩
  · simp only [pfMul, hap]; exact hfmod _
  · simp only [pfAdd, hap]; exact hfmod _
  · simp only [pfSub, hap]; exact hfmod _
  · simp only [pfPow, utilsPowmod, powmodZ, hap]
    split_ifs with h1 he
    · exact ⟨by norm_num, hp1⟩
    · exact hfmod _
    · exact hinvmod _
  · simp only [pfInverse, utilsInvert, hap] at hr
    by_cases h0 : a.value = 0
    · rw [if_pos h0] at hr; cases hr
    · rw [if_neg h0] at hr
      by_cases hg : Int.gcd a.value p = 1
      · rw [if_pos hg] at hr
        by_cases hz : ((invmod ((a.value.fmod p).toNat) p.toNat : ℕ) : ℤ) = 0
        · rw [if_pos hz, Option.map_none'] at hr; cases hr
        · rw [if_neg hz, Option.map_some', Option.some.injEq] at hr
          rw [← hr]
          exact hinvmod _
      · rw [if_neg hg, Option.map_none'] at hr; cases hr

/-- Witness for C9: multiplying two elements of the 7-element field lands in
[0, 7). -/
theorem C9_witness :
    0 ≤ (pfMul (pfInit 9 7 64) (pfInit 5 7 64)).value ∧
      (pfMul (pfInit 9 7 64) (pfInit 5 7 64)).value < 7 :=
  (C9_pfield_arithmetic_range 7 (by norm_num)).1 (pfInit 9 7 64) (pfInit 5 7 64) rfl

/-- C9 counterexample: constructing a PField from the integer p itself
stores p, which is not below the modulus: the claimed constructor-range
invariant fails. -/
theorem C9_counterexample :
    ¬ ((pfInit 7 7 64).value < (pfInit 7 7 64).p) := by decide

/-- C10: adding to an EncryptedNumberJL any operand that is neither an
EncryptedNumberJL nor an mpz silently returns Python None: no isinstance
branch matches and __add__ falls off its end. -/
theorem C10_add_returns_none (x : EncNum) (v : PyAddend)
    (hne : ∀ pp2 c2, v ≠ .encNum pp2 c2) (hnm : ∀ z, v ≠ .mpzVal z) :
    encAdd x v = .pyNone := by
  cases v with
  | encNum pp2 c2 => exact absurd rfl (hne pp2 c2)
  | mpzVal z => exact absurd rfl (hnm z)
  | intVal _ => rfl
  | otherVal => rfl

/-- Witness for C10: adding the plain Python int 5 to a ciphertext under
modulus 35 yields None. -/
theorem C10_witness : encAdd ⟨35, 8⟩ (.intVal 5) = .pyNone :=
  C10_add_returns_none ⟨35, 8⟩ (.intVal 5)
    (fun _ _ h => PyAddend.noConfusion h)
    (fun _ h => PyAddend.noConfusion h)

/-- Witness for C2 at n = 35 = 5*7, h = 2: keys 3, 4 with server key -7,
inputs 5 and 6, recovering 11 both pairwise and through JLS.agg. -/
theorem C2_witness :
    jlRawDecrypt 35 2 (-7) (jlAdd 35 (jlEncrypt 35 2 3 5) (jlEncrypt 35 2 4 6)) 1 false
        = ((5 + 6 : ℕ) : ℤ)
    ∧ jlAgg 35 2 (-(([3, 4] : List ℤ).sum))
        ((([3, 4] : List ℤ).zip ([5, 6] : List ℕ)).map (fun p => jlEncrypt 35 2 p.1 p.2))
        = ((([5, 6] : List ℕ).sum : ℕ) : ℤ) :=
  ⟨(C2_homomorphism_and_agg 35 2 (by norm_num) (by decide)).1 3 4 (-7) 5 6 (by decide)
      (by decide),
   (C2_homomorphism_and_agg 35 2 (by norm_num) (by decide)).2 [3, 4] [5, 6] (by decide)
      (by decide) (by decide)⟩

end LTD
